import Mathlib

/-!
# SonTek ADP frame locator (`src/sontek_adp.c`)

A shallow embedding of the C function `ldc_sontek_adp` and proofs about it.

Conventions of the embedding
* the raw buffer is a `RawVec`: its length `LENGTH(buf)` and the byte that `pbuf` holds at each
  index, a `Byte` being an unsigned 8-bit value;
* `pbuf[j]` is a bounds-checked read: a read at `j ≥ LENGTH(buf)` has no value in C, and the
  embedding stops with `Abort.out_of_bounds`, whatever the byte map holds there;
* a call of `error(...)` stops the function with the matching `Abort` constructor;
* `unsigned short` arithmetic is arithmetic on `Nat` modulo `2^16`;
* `int` values are `Int`: no `int` computed by the function leaves the 32-bit range
  (`chunk_length ≤ 786500`, every index is at most `LENGTH(buf)`);
* the output vector `res` is a list of `lres` slots, `none` being a slot that has not been
  written since `NEW_INTEGER` (which does not initialise); a store `pres[ires] = v` with
  `ires ≥ lres` lies outside the vector, leaves its slots as they are and is recorded apart.
-/

namespace SontekAdp

/-- An element of the RAW vector `buf`: an `unsigned char`. -/
abbrev Byte := Fin 256

/-- The RAW vector `buf`: `length` is `LENGTH(buf)` and `byte j` is `RAW_POINTER(buf)[j]`.
Only the bytes at `j < length` belong to the buffer. -/
structure RawVec where
  length : Nat
  byte : Nat → Byte

/-- The ways the function stops without returning a vector: the six `error(...)` calls of the
source, and a read of `pbuf` past the end of the buffer. -/
inductive Abort where
  /-- `error("cannot read SonTek ADP files with CTD data")` -/
  | ctd
  /-- `error("cannot read SonTek ADP files with bottom-track data")` -/
  | bottom_track
  /-- `error("cannot read SonTek ADP files with GPS data")` -/
  | gps
  /-- `error("cannot read Sontek ADP from a buffer with fewer than 1000 bytes")` -/
  | short_buffer
  /-- `error("number of beams must be 2 or 3, but it is %d", nbeam)` -/
  | beams (nbeam : Int)
  /-- `error("cannot determine #beams or #cells, based on first 1000 bytes in buffer")` -/
  | no_geometry
  /-- Not an `error` call: `pbuf[j]` was read with `j ≥ LENGTH(buf)`. -/
  | out_of_bounds
  deriving DecidableEq, Repr

/-- The three `error` calls that reject an auxiliary data stream. -/
def Abort.isAuxStream : Abort → Bool
  | .ctd => true
  | .bottom_track => true
  | .gps => true
  | _ => false

deriving instance DecidableEq for Except

def byte1 : Nat := 0xA5
def byte2 : Nat := 0x10
def byte3 : Nat := 0x50

/-- The constant `((unsigned short)0xa5<<8) | ((unsigned short)0x96)`. -/
def check_sum_start : Nat := ((0xa5 <<< 8) ||| 0x96) % 65536

def first_look : Nat := 1000

/-- The read `pbuf[j]`, as a number in `0..255`. -/
def rd (pbuf : RawVec) (j : Nat) : Except Abort Nat :=
  if j < pbuf.length then .ok (pbuf.byte j).val else .error .out_of_bounds

/-- The test `pbuf[i] == byte1 && pbuf[i+1] == byte2 && pbuf[i+2] == byte3`; `&&` reads its
right operand only when the left one holds. -/
def sync_at (pbuf : RawVec) (i : Nat) : Except Abort Bool :=
  match rd pbuf i with
  | .error e => .error e
  | .ok b1 =>
    if b1 ≠ byte1 then .ok false
    else match rd pbuf (i + 1) with
      | .error e => .error e
      | .ok b2 =>
        if b2 ≠ byte2 then .ok false
        else match rd pbuf (i + 2) with
          | .error e => .error e
          | .ok b3 => .ok (decide (b3 = byte3))

/-- The value `((unsigned short)lo) | ((unsigned short)hi << 8)`. -/
def le16 (lo hi : Nat) : Nat := lo ||| (hi <<< 8)

/-- The body of the probe loop at a sync match: `nbeam = (int)pbuf[i + 26]`,
`ncell = pbuf[i+30] | pbuf[i+31] << 8`, and the test `nbeam < 2 || nbeam > 3`. -/
def header_at (pbuf : RawVec) (i : Nat) : Except Abort (Int × Int) :=
  match rd pbuf (i + 26) with
  | .error e => .error e
  | .ok b26 =>
    match rd pbuf (i + 30) with
    | .error e => .error e
    | .ok b30 =>
      match rd pbuf (i + 31) with
      | .error e => .error e
      | .ok b31 =>
        let nbeam : Int := b26
        let ncell : Int := le16 b30 b31
        if nbeam < 2 ∨ nbeam > 3 then .error (.beams nbeam)
        else .ok (nbeam, ncell)

/-- The probe loop `for (i = 0; i < first_look - 3; i++)`, with `n` iterations left from `i`.
It yields `(nbeam, ncell)`, both still `-1` when the loop ends without a sync match; the loop
is left (`break`) at the first sync match. -/
def probe_loop (pbuf : RawVec) : Nat → Nat → Except Abort (Int × Int)
  | 0, _ => .ok (-1, -1)
  | n + 1, i =>
    match sync_at pbuf i with
    | .error e => .error e
    | .ok false => probe_loop pbuf n (i + 1)
    | .ok true => header_at pbuf i

/-- The geometry probe: the probe loop followed by the test `nbeam < 0 || ncell < 0`. -/
def probe (pbuf : RawVec) : Except Abort (Int × Int) :=
  match probe_loop pbuf (first_look - 3) 0 with
  | .error e => .error e
  | .ok (nbeam, ncell) =>
    if nbeam < 0 ∨ ncell < 0 then .error .no_geometry else .ok (nbeam, ncell)

/-- The frame length
`80 + (have_ctd?16:0) + (have_gps?40:0) + (have_bottom_track?18:0) + 4 * ncell * nbeam`. -/
def chunk_length (have_ctd have_gps have_bottom_track ncell nbeam : Int) : Int :=
  80 + (if have_ctd ≠ 0 then 16 else 0) + (if have_gps ≠ 0 then 40 else 0)
    + (if have_bottom_track ≠ 0 then 18 else 0) + 4 * ncell * nbeam

/-- The loop `for (c = 0; c < chunk_length; c++) check_sum += (unsigned short)pbuf[i + c]`,
with `n` iterations left from `c`. -/
def check_sum_loop (pbuf : RawVec) (i : Nat) : Nat → Nat → Nat → Except Abort Nat
  | 0, _, check_sum => .ok check_sum
  | n + 1, c, check_sum =>
    match rd pbuf (i + c) with
    | .error e => .error e
    | .ok b => check_sum_loop pbuf i n (c + 1) ((check_sum + b) % 65536)

/-- The value of `desired_check_sum`, read from `pbuf[i+chunk_length]` and the byte after. -/
def desired_check_sum (pbuf : RawVec) (i L : Nat) : Except Abort Nat :=
  match rd pbuf (i + L) with
  | .error e => .error e
  | .ok lo =>
    match rd pbuf (i + L + 1) with
    | .error e => .error e
    | .ok hi => .ok (le16 lo hi % 65536)

/-- The test made on one offset `i` by both passes: `none` when the sync bytes do not match
(nothing more is read), otherwise `some (check_sum == desired_check_sum)`. -/
def candidate (pbuf : RawVec) (L i : Nat) : Except Abort (Option Bool) :=
  match sync_at pbuf i with
  | .error e => .error e
  | .ok false => .ok none
  | .ok true =>
    match check_sum_loop pbuf i L 0 check_sum_start with
    | .error e => .error e
    | .ok check_sum =>
      match desired_check_sum pbuf i L with
      | .error e => .error e
      | .ok desired => .ok (some (decide (check_sum = desired)))

/-- The counting pass `for (int i = 0; i < lbuf - 3 - chunk_length; i++)`, with `n` iterations
left from `i`; it yields the counter `matches` (here `nmatches`). `max` is the cap after `if (max < 0) max = 0`. -/
def count_loop (pbuf : RawVec) (L : Nat) (max : Int) : Nat → Nat → Nat → Except Abort Nat
  | 0, _, nmatches => .ok nmatches
  | n + 1, i, nmatches =>
    match candidate pbuf L i with
    | .error e => .error e
    | .ok (some true) =>
      if max ≠ 0 ∧ ((nmatches + 1 : Nat) : Int) ≥ max then .ok (nmatches + 1)
      else count_loop pbuf L max n (i + 1) (nmatches + 1)
    | .ok _ => count_loop pbuf L max n (i + 1) nmatches

/-- The state of the collection pass: the `lres` slots of the vector, the index `ires`, and
the stores made at an index outside the vector, in the order they were made. -/
structure Collect where
  pres : List (Option Int)
  ires : Nat
  stray : List (Nat × Int)
  deriving DecidableEq, Repr

/-- The store `pres[ires++] = v`. -/
def Collect.store (s : Collect) (v : Int) : Collect :=
  if s.ires < s.pres.length then ⟨s.pres.set s.ires (some v), s.ires + 1, s.stray⟩
  else ⟨s.pres, s.ires + 1, s.stray ++ [(s.ires, v)]⟩

/-- The collection pass `for (int i = 0; i < lbuf - 3 - chunk_length; i++)`, with `n`
iterations left from `i`. The test `ires > lres` is made after every sync match, whether or
not the check sums agree. -/
def collect_loop (pbuf : RawVec) (L lres : Nat) : Nat → Nat → Collect → Except Abort Collect
  | 0, _, s => .ok s
  | n + 1, i, s =>
    match candidate pbuf L i with
    | .error e => .error e
    | .ok none => collect_loop pbuf L lres n (i + 1) s
    | .ok (some good) =>
      let s1 := if good then s.store ((i : Int) + 1) else s
      if s1.ires > lres then .ok s1 else collect_loop pbuf L lres n (i + 1) s1

/-- The number of iterations of `for (int i = 0; i < lbuf - 3 - chunk_length; i++)`. -/
def scan_bound (lbuf : Nat) (chunk_length : Int) : Nat :=
  ((lbuf : Int) - 3 - chunk_length).toNat

/-- The function `ldc_sontek_adp`. After the probe `chunk_length` is at least 80 (see
`chunk_length_ge`), so the loops take it as a natural number. -/
def ldc_sontek_adp (buf : RawVec) (have_ctd have_gps have_bottom_track max : Int) :
    Except Abort (List (Option Int)) :=
  if have_ctd ≠ 0 then .error .ctd
  else if have_bottom_track ≠ 0 then .error .bottom_track
  else if have_gps ≠ 0 then .error .gps
  else
    let lbuf := buf.length
    let max : Int := if max < 0 then 0 else max
    if first_look > lbuf then .error .short_buffer
    else
      match probe buf with
      | .error e => .error e
      | .ok (nbeam, ncell) =>
        let chunk_length := chunk_length have_ctd have_gps have_bottom_track ncell nbeam
        let n := scan_bound lbuf chunk_length
        match count_loop buf chunk_length.toNat max n 0 0 with
        | .error e => .error e
        | .ok nmatches =>
          let lres := nmatches
          if lres > 0 then
            match collect_loop buf chunk_length.toNat lres n 0 ⟨List.replicate lres none, 0, []⟩ with
            | .error e => .error e
            | .ok s => .ok s.pres
          else .ok [some 0]

/-! ## The per-candidate test, stated on the bytes -/

/-- The three sync bytes stand at `i`, `i+1`, `i+2`. -/
def SyncAt (pbuf : RawVec) (i : Nat) : Prop :=
  (pbuf.byte i).val = 0xA5 ∧ (pbuf.byte (i + 1)).val = 0x10 ∧ (pbuf.byte (i + 2)).val = 0x50

instance (pbuf : RawVec) (i : Nat) : Decidable (SyncAt pbuf i) := by
  unfold SyncAt; exact inferInstance

/-- The sum of the `n` bytes at `a`, `a+1`, ..., `a+n-1`. -/
def byte_sum (pbuf : RawVec) (a n : Nat) : Nat :=
  ((List.range' a n).map (fun j => (pbuf.byte j).val)).sum

/-- The 16-bit little-endian value stored at `j`, `j+1`. -/
def stored16 (pbuf : RawVec) (j : Nat) : Nat :=
  (pbuf.byte j).val + 256 * (pbuf.byte (j + 1)).val

/-- The sync-and-checksum test at offset `i` for frame length `L`: the sync bytes match and
`(0xA596 + sum of bytes i .. i+L-1) mod 2^16` is the value stored at `i+L`, `i+L+1`. -/
def Passes (pbuf : RawVec) (L i : Nat) : Prop :=
  SyncAt pbuf i ∧ (0xA596 + byte_sum pbuf i L) % 65536 = stored16 pbuf (i + L)

instance (pbuf : RawVec) (L i : Nat) : Decidable (Passes pbuf L i) := by
  unfold Passes; exact inferInstance

/-- The offsets `j` with `i ≤ j < i + n` that pass the test, in ascending order. -/
def passing (pbuf : RawVec) (L i n : Nat) : List Nat :=
  (List.range' i n).filter (fun j => decide (Passes pbuf L j))

/-- The offset `i` as the function reports it: `i + 1`, in a written slot. -/
def reported (i : Nat) : Option Int := some ((i : Int) + 1)

/-! ## The result, stated on the passing offsets -/

/-- The slots of the vector after the stores for the offsets `js`, the next store going to
slot `k`: a store at `k ≥ lres` is outside the vector and ends the pass. -/
def fill (pres : List (Option Int)) (k : Nat) : List Nat → List (Option Int)
  | [] => pres
  | j :: js => if k < pres.length then fill (pres.set k (reported j)) (k + 1) js else pres

/-- The offsets kept under the cap: all of them when `max ≤ 0`, the first `max` otherwise. -/
def kept (max : Int) (js : List Nat) : List Nat :=
  if max ≤ 0 then js else js.take max.toNat

/-- The returned vector for the kept offsets `js`: `[0]` when there is none. -/
def encode : List Nat → List (Option Int)
  | [] => [some 0]
  | j :: js => (j :: js).map reported

/-! ## Frames as the specification describes them -/

/-- A frame that is valid on its own terms starts at `p`: the sync bytes, a beam count of 2
or 3 at `p+26`, the cell count at `p+30`, `p+31`, all of its `80 + 4*b*c` body bytes and its
two check-sum bytes inside the buffer, and the stored check sum equal to the computed one. -/
def FrameAt (pbuf : RawVec) (p : Nat) : Prop :=
  SyncAt pbuf p
    ∧ ((pbuf.byte (p + 26)).val = 2 ∨ (pbuf.byte (p + 26)).val = 3)
    ∧ p + (80 + 4 * (pbuf.byte (p + 26)).val * stored16 pbuf (p + 30)) + 1 < pbuf.length
    ∧ (0xA596 + byte_sum pbuf p (80 + 4 * (pbuf.byte (p + 26)).val * stored16 pbuf (p + 30)))
        % 65536
      = stored16 pbuf (p + (80 + 4 * (pbuf.byte (p + 26)).val * stored16 pbuf (p + 30)))

instance (pbuf : RawVec) (p : Nat) : Decidable (FrameAt pbuf p) := by
  unfold FrameAt; exact inferInstance

/-! ## Sample buffers -/

/-- A frame with 2 beams and 0 cells (80 body bytes) followed by its check sum `0xA69D`:
the byte at index `j` of the frame, and 0 from index 82 on. -/
def frame2 (j : Nat) : Byte :=
  if j = 0 then 0xA5 else if j = 1 then 0x10 else if j = 2 then 0x50
  else if j = 26 then 2 else if j = 80 then 0x9D else if j = 81 then 0xA6 else 0

/-- An empty buffer. -/
def buf_empty : RawVec := ⟨0, fun _ => 0⟩

/-- A 1000-byte buffer holding `frame2` at offset 0 and zeros elsewhere. -/
def buf_one : RawVec := ⟨1000, frame2⟩

/-- A 1000-byte buffer holding `frame2` at offsets 0 and 82 and zeros elsewhere. -/
def buf_two : RawVec := ⟨1000, fun j => if j < 82 then frame2 j else frame2 (j - 82)⟩

/-- A 1000-byte buffer holding zeros and then `frame2` at offset 917 = 1000 - 3 - 80, so that
the frame ends at index 998. -/
def buf_tail : RawVec := ⟨1000, fun j => if j < 917 then 0 else frame2 (j - 917)⟩

/-- A 1000-byte buffer with the three sync bytes at offset 0, followed at offset 3 by
`frame2`; byte 26, where a frame at offset 0 would hold its beam count, is 0. -/
def buf_shadow : RawVec := ⟨1000, fun j => if j < 3 then frame2 j else frame2 (j - 3)⟩

/-- A 1000-byte buffer holding zeros and then the three sync bytes at offsets 997, 998, 999,
the last offset at which they fit. -/
def buf_edge : RawVec := ⟨1000, fun j => if j < 997 then 0 else frame2 (j - 997)⟩

/-- A 1000-byte buffer holding zeros and then the three sync bytes at offsets 990, 991, 992;
a frame starting there would hold its beam count at index 1016, past the end. -/
def buf_late : RawVec := ⟨1000, fun j => if j < 990 then 0 else frame2 (j - 990)⟩

/-- A 1000-byte buffer with two overlapping 80-byte frames that both pass the test: one at
offset 0 (check sum `0xA7A2` at 80, 81) and one at offset 40 (check sum `0xA7E4` at 120, 121),
the second inside the body of the first. -/
def buf_overlap : RawVec :=
  ⟨1000, fun j =>
    if j = 0 then 0xA5 else if j = 1 then 0x10 else if j = 2 then 0x50
    else if j = 26 then 2
    else if j = 40 then 0xA5 else if j = 41 then 0x10 else if j = 42 then 0x50
    else if j = 80 then 0xA2 else if j = 81 then 0xA7
    else if j = 120 then 0xE4 else if j = 121 then 0xA7 else 0⟩

/-- A 1000-byte buffer whose header at offset 0 announces 2 beams and 115 cells, a frame
length of 1000. -/
def buf_wide : RawVec :=
  ⟨1000, fun j =>
    if j = 0 then 0xA5 else if j = 1 then 0x10 else if j = 2 then 0x50
    else if j = 26 then 2 else if j = 30 then 115 else 0⟩

/-! ## Notions used to state the later claims -/

/-- The buffer with the byte at index `k` replaced by `v`. -/
def RawVec.set (pbuf : RawVec) (k : Nat) (v : Byte) : RawVec :=
  ⟨pbuf.length, fun j => if j = k then v else pbuf.byte j⟩

/-- The same bytes seen as a buffer of length `m`: with `m` below the length, a bounds-checked
read at an index `≥ m` stops the run, so a run that ends normally on `upto m` has read only
indices below `m`. -/
def RawVec.upto (pbuf : RawVec) (m : Nat) : RawVec := ⟨m, pbuf.byte⟩

/-- The single pass of the specification (§4.2, two-pass requirement), with `n` offsets left
from `i` and `out` collected so far: it goes through the offsets in ascending order, appends
`i + 1` for each offset `i` that passes the test, and stops once `max` offsets are collected
(`max` negative: no cap). -/
def single_pass (pbuf : RawVec) (L : Nat) (max : Int) : Nat → Nat → List Int → List Int
  | 0, _, out => out
  | n + 1, i, out =>
    if 0 ≤ max ∧ max ≤ (out.length : Int) then out
    else if Passes pbuf L i then single_pass pbuf L max n (i + 1) (out ++ [(i : Int) + 1])
    else single_pass pbuf L max n (i + 1) out

/-- The store made outside the vector, if any, when the next store goes to slot `k ≤ lres`
and the offsets `js` are still to be stored: the offset number `lres - k` of `js`, at index
`lres`. -/
def overrun (lres k : Nat) (js : List Nat) : List (Nat × Int) :=
  match js[lres - k]? with
  | some j => [(lres, (j : Int) + 1)]
  | none => []

/-- The value `x` is a 32-bit signed `int`. -/
def fits32 (x : Int) : Prop := -2147483648 ≤ x ∧ x ≤ 2147483647

instance (x : Int) : Decidable (fits32 x) := by
  unfold fits32; exact inferInstance

/-! ## Lemmas on the reads and on the per-candidate test -/

theorem rd_ok {pbuf : RawVec} {j : Nat} (h : j < pbuf.length) :
    rd pbuf j = .ok (pbuf.byte j).val := by
  simp [rd, h]

theorem rd_error {pbuf : RawVec} {j : Nat} (h : pbuf.length ≤ j) :
    rd pbuf j = .error .out_of_bounds := by
  simp [rd, Nat.not_lt.mpr h]

theorem le16_eq (lo hi : Nat) (h : lo < 256) : le16 lo hi = lo + 256 * hi := by
  unfold le16
  rw [Nat.shiftLeft_eq, Nat.lor_comm, Nat.mul_comm, Nat.add_comm]
  exact (Nat.mul_add_lt_is_or (i := 8) h hi).symm

theorem check_sum_start_eq : check_sum_start = 0xA596 := by decide

theorem sync_at_ok {pbuf : RawVec} {i : Nat} (h : i + 2 < pbuf.length) :
    sync_at pbuf i = .ok (decide (SyncAt pbuf i)) := by
  unfold sync_at SyncAt
  rw [rd_ok (show i < pbuf.length by omega), rd_ok (show i + 1 < pbuf.length by omega), rd_ok h]
  simp only [byte1, byte2, byte3]
  by_cases h1 : (pbuf.byte i).val = 0xA5
  · by_cases h2 : (pbuf.byte (i + 1)).val = 0x10
    · simp [h1, h2]
    · simp [h1, h2]
  · simp [h1]

theorem byte_sum_succ (pbuf : RawVec) (a n : Nat) :
    byte_sum pbuf a (n + 1) = (pbuf.byte a).val + byte_sum pbuf (a + 1) n := by
  simp [byte_sum, List.range'_succ]

theorem check_sum_loop_ok (pbuf : RawVec) (i : Nat) :
    ∀ (n c check_sum : Nat), i + c + n ≤ pbuf.length → check_sum < 65536 →
      check_sum_loop pbuf i n c check_sum
        = .ok ((check_sum + byte_sum pbuf (i + c) n) % 65536) := by
  intro n
  induction n with
  | zero =>
    intro c check_sum _ hc
    simp [check_sum_loop, byte_sum, Nat.mod_eq_of_lt hc]
  | succ n ih =>
    intro c check_sum h _
    unfold check_sum_loop
    rw [rd_ok (show i + c < pbuf.length by omega)]
    simp only
    rw [ih (c + 1) _ (by omega) (Nat.mod_lt _ (by decide)), byte_sum_succ]
    congr 1
    rw [show i + (c + 1) = i + c + 1 by omega]
    omega

theorem desired_check_sum_ok {pbuf : RawVec} {i L : Nat} (h : i + L + 1 < pbuf.length) :
    desired_check_sum pbuf i L = .ok (stored16 pbuf (i + L)) := by
  unfold desired_check_sum stored16
  rw [rd_ok (show i + L < pbuf.length by omega), rd_ok h]
  simp only
  rw [le16_eq _ _ (pbuf.byte (i + L)).isLt]
  congr 1
  omega

/-- Inside the buffer, the test of the source at offset `i` is the test stated on the bytes. -/
theorem candidate_ok {pbuf : RawVec} {L i : Nat} (h : i + L + 3 ≤ pbuf.length) :
    candidate pbuf L i
      = .ok (if SyncAt pbuf i then some (decide (Passes pbuf L i)) else none) := by
  unfold candidate
  rw [sync_at_ok (show i + 2 < pbuf.length by omega)]
  by_cases hs : SyncAt pbuf i
  · have hc := check_sum_loop_ok pbuf i L 0 check_sum_start (by omega) (by decide)
    simp only [Nat.add_zero] at hc
    rw [hc, desired_check_sum_ok (show i + L + 1 < pbuf.length by omega)]
    simp only [hs, decide_True, if_true, Passes, true_and, check_sum_start_eq]
  · simp [hs]

theorem candidate_of_passes {pbuf : RawVec} {L i : Nat} (h : i + L + 3 ≤ pbuf.length)
    (hp : Passes pbuf L i) : candidate pbuf L i = .ok (some true) := by
  rw [candidate_ok h]
  simp [hp, hp.1]

theorem candidate_of_not_passes {pbuf : RawVec} {L i : Nat} (h : i + L + 3 ≤ pbuf.length)
    (hp : ¬ Passes pbuf L i) :
    candidate pbuf L i = .ok none ∨ candidate pbuf L i = .ok (some false) := by
  rw [candidate_ok h]
  by_cases hs : SyncAt pbuf i
  · right; simp [hs, hp]
  · left; simp [hs]

theorem passing_succ_of_passes {pbuf : RawVec} {L i : Nat} (n : Nat) (hp : Passes pbuf L i) :
    passing pbuf L i (n + 1) = i :: passing pbuf L (i + 1) n := by
  simp [passing, List.range'_succ, List.filter_cons, hp]

theorem passing_succ_of_not_passes {pbuf : RawVec} {L i : Nat} (n : Nat)
    (hp : ¬ Passes pbuf L i) :
    passing pbuf L i (n + 1) = passing pbuf L (i + 1) n := by
  simp [passing, List.range'_succ, List.filter_cons, hp]

theorem mem_passing {pbuf : RawVec} {L i n j : Nat} :
    j ∈ passing pbuf L i n ↔ (i ≤ j ∧ j < i + n) ∧ Passes pbuf L j := by
  simp [passing, List.mem_filter, List.mem_range'_1]

theorem passing_sorted (pbuf : RawVec) (L i n : Nat) :
    (passing pbuf L i n).Pairwise (fun a b => a < b) :=
  (List.pairwise_lt_range' i n).filter _

/-! ## The counting pass -/

/-- Without a cap (`max = 0` after normalisation) the counting pass counts every passing
offset of its range. -/
theorem count_loop_uncapped (pbuf : RawVec) (L : Nat) :
    ∀ (n i k : Nat), (0 < n → i + n + L + 3 ≤ pbuf.length) →
      count_loop pbuf L 0 n i k = .ok (k + (passing pbuf L i n).length) := by
  intro n
  induction n with
  | zero => intro i k _; simp [count_loop, passing]
  | succ n ih =>
    intro i k h
    have h0 := h (Nat.succ_pos n)
    unfold count_loop
    by_cases hp : Passes pbuf L i
    · rw [candidate_of_passes (by omega) hp, passing_succ_of_passes n hp]
      simp only [ne_eq, not_true_eq_false, false_and, if_false]
      rw [ih (i + 1) (k + 1) (by omega)]
      simp only [List.length_cons]
      congr 1
      omega
    · rw [passing_succ_of_not_passes n hp]
      rcases candidate_of_not_passes (show i + L + 3 ≤ pbuf.length by omega) hp with hc | hc
      · rw [hc]; exact ih (i + 1) k (by omega)
      · rw [hc]; exact ih (i + 1) k (by omega)

/-- With a cap `max > 0` not yet reached, the counting pass stops at the cap. -/
theorem count_loop_capped (pbuf : RawVec) (L : Nat) (max : Int) (hmax : 0 < max) :
    ∀ (n i k : Nat), (0 < n → i + n + L + 3 ≤ pbuf.length) → (k : Int) < max →
      count_loop pbuf L max n i k = .ok (min (k + (passing pbuf L i n).length) max.toNat) := by
  intro n
  induction n with
  | zero => intro i k _ hk; simp [count_loop, passing]; omega
  | succ n ih =>
    intro i k h hk
    have h0 := h (Nat.succ_pos n)
    unfold count_loop
    by_cases hp : Passes pbuf L i
    · rw [candidate_of_passes (by omega) hp, passing_succ_of_passes n hp]
      simp only [List.length_cons]
      by_cases hb : ((k + 1 : Nat) : Int) ≥ max
      · rw [if_pos ⟨by omega, hb⟩]
        congr 1
        omega
      · rw [if_neg (fun hh => hb hh.2), ih (i + 1) (k + 1) (by omega) (by omega)]
        congr 1
        omega
    · rw [passing_succ_of_not_passes n hp]
      rcases candidate_of_not_passes (show i + L + 3 ≤ pbuf.length by omega) hp with hc | hc
      · rw [hc]; exact ih (i + 1) k (by omega) hk
      · rw [hc]; exact ih (i + 1) k (by omega) hk


/-! ## The collection pass -/

theorem collect_loop_pres (pbuf : RawVec) (L lres : Nat) :
    ∀ (n i : Nat) (s : Collect), (0 < n → i + n + L + 3 ≤ pbuf.length) →
      s.pres.length = lres → s.ires ≤ lres →
      ∃ s1, collect_loop pbuf L lres n i s = .ok s1
        ∧ s1.pres = fill s.pres s.ires (passing pbuf L i n) := by
  intro n
  induction n with
  | zero => intro i s _ _ _; exact ⟨s, by simp [collect_loop], by simp [passing, fill]⟩
  | succ n ih =>
    intro i s h hlen hk
    have h0 := h (Nat.succ_pos n)
    unfold collect_loop
    by_cases hp : Passes pbuf L i
    · rw [candidate_of_passes (by omega) hp, passing_succ_of_passes n hp]
      simp only [if_true, fill]
      by_cases hlt : s.ires < lres
      · have hst : s.store ((i : Int) + 1)
            = ⟨s.pres.set s.ires (reported i), s.ires + 1, s.stray⟩ := by
          simp [Collect.store, hlen, hlt, reported]
        rw [hst, if_neg (by simp only; omega), if_pos (by omega)]
        exact ih (i + 1) _ (by omega) (by simp [hlen]) (by simp only; omega)
      · have hst : s.store ((i : Int) + 1)
            = ⟨s.pres, s.ires + 1, s.stray ++ [(s.ires, (i : Int) + 1)]⟩ := by
          simp [Collect.store, hlen, hlt]
        rw [hst, if_pos (by simp only; omega), if_neg (by omega)]
        exact ⟨_, rfl, rfl⟩
    · rw [passing_succ_of_not_passes n hp]
      rcases candidate_of_not_passes (show i + L + 3 ≤ pbuf.length by omega) hp with hc | hc
      · rw [hc]; exact ih (i + 1) s (by omega) hlen hk
      · rw [hc]
        simp only [Bool.false_eq_true, if_false]
        rw [if_neg (by omega)]
        exact ih (i + 1) s (by omega) hlen hk

theorem fill_spec : ∀ (js xs : List Nat) (r : Nat),
    fill (xs.map reported ++ List.replicate r none) xs.length js
      = (xs ++ js.take r).map reported ++ List.replicate (r - js.length) none := by
  intro js
  induction js with
  | nil => intro xs r; simp [fill]
  | cons j js ih =>
    intro xs r
    cases r with
    | zero => simp [fill]
    | succ r =>
      have hset : (xs.map reported ++ List.replicate (r + 1) none).set xs.length (reported j)
          = (xs ++ [j]).map reported ++ List.replicate r none := by
        rw [List.set_append_right _ _ (by simp)]
        simp [List.replicate_succ]
      have hlen : xs.length + 1 = (xs ++ [j]).length := by simp
      simp only [fill, List.length_append, List.length_map, List.length_replicate]
      rw [if_pos (by omega), hset, hlen, ih (xs ++ [j]) r]
      simp

theorem fill_replicate (js : List Nat) (m : Nat) (h : m ≤ js.length) :
    fill (List.replicate m none) 0 js = (js.take m).map reported := by
  have := fill_spec js [] m
  simp only [List.map_nil, List.nil_append, List.length_nil] at this
  rw [this, Nat.sub_eq_zero_of_le h]
  simp

/-! ## The geometry probe -/

theorem header_at_of_lt {pbuf : RawVec} {i : Nat} (h : i + 31 < pbuf.length) :
    header_at pbuf i
      = if ((pbuf.byte (i + 26)).val : Int) < 2 ∨ ((pbuf.byte (i + 26)).val : Int) > 3
        then .error (.beams (pbuf.byte (i + 26)).val)
        else .ok (((pbuf.byte (i + 26)).val : Int), ((stored16 pbuf (i + 30) : Nat) : Int)) := by
  unfold header_at
  rw [rd_ok (show i + 26 < pbuf.length by omega), rd_ok (show i + 30 < pbuf.length by omega),
    rd_ok (show i + 30 + 1 < pbuf.length by omega)]
  simp only [le16_eq _ _ (pbuf.byte (i + 30)).isLt, stored16]

theorem header_at_of_ge {pbuf : RawVec} {i : Nat} (h : pbuf.length ≤ i + 31) :
    header_at pbuf i = .error .out_of_bounds := by
  unfold header_at
  by_cases h26 : i + 26 < pbuf.length
  · rw [rd_ok h26]
    by_cases h30 : i + 30 < pbuf.length
    · rw [rd_ok h30, rd_error h]
    · rw [rd_error (Nat.not_lt.mp h30)]
  · rw [rd_error (Nat.not_lt.mp h26)]

theorem header_at_facts {pbuf : RawVec} {i : Nat} {nbeam ncell : Int}
    (h : header_at pbuf i = .ok (nbeam, ncell)) :
    i + 31 < pbuf.length ∧ nbeam = ((pbuf.byte (i + 26)).val : Int)
      ∧ ncell = ((stored16 pbuf (i + 30) : Nat) : Int) ∧ 2 ≤ nbeam ∧ nbeam ≤ 3 := by
  by_cases hlt : i + 31 < pbuf.length
  · rw [header_at_of_lt hlt] at h
    split at h
    · cases h
    · rename_i hb
      injection h with h
      injection h with h1 h2
      subst h1 h2
      exact ⟨hlt, rfl, rfl, by omega, by omega⟩
  · rw [header_at_of_ge (Nat.not_lt.mp hlt)] at h
    cases h

theorem probe_loop_facts (pbuf : RawVec) {nbeam ncell : Int} :
    ∀ (n i : Nat), probe_loop pbuf n i = .ok (nbeam, ncell) →
      (nbeam = -1 ∧ ncell = -1) ∨ (2 ≤ nbeam ∧ nbeam ≤ 3 ∧ 0 ≤ ncell) := by
  intro n
  induction n with
  | zero =>
    intro i h
    simp only [probe_loop] at h
    injection h with h
    injection h with h1 h2
    exact Or.inl ⟨h1.symm, h2.symm⟩
  | succ n ih =>
    intro i h
    unfold probe_loop at h
    split at h
    · cases h
    · exact ih (i + 1) h
    · obtain ⟨_, _, h3, h4, h5⟩ := header_at_facts h
      exact Or.inr ⟨h4, h5, by omega⟩

theorem probe_facts {pbuf : RawVec} {nbeam ncell : Int} (h : probe pbuf = .ok (nbeam, ncell)) :
    2 ≤ nbeam ∧ nbeam ≤ 3 ∧ 0 ≤ ncell := by
  unfold probe at h
  split at h
  · cases h
  · rename_i nb nc hl
    split at h
    · cases h
    · injection h with h
      injection h with h1 h2
      subst h1 h2
      rcases probe_loop_facts pbuf _ _ hl with hh | hh
      · omega
      · exact hh

theorem chunk_length_ge {nbeam ncell : Int} (hb : 2 ≤ nbeam) (hc : 0 ≤ ncell) :
    80 ≤ chunk_length 0 0 0 ncell nbeam := by
  have : 0 ≤ 4 * ncell * nbeam := by positivity
  simp only [chunk_length, ne_eq, not_true_eq_false, if_false]
  omega

/-! ## The whole function -/

theorem encode_of_ne_nil {js : List Nat} (h : js ≠ []) : encode js = js.map reported := by
  cases js with
  | nil => exact absurd rfl h
  | cons j js => rfl

theorem take_min_length (js : List Nat) (m : Nat) : js.take (min js.length m) = js.take m := by
  rcases Nat.le_total js.length m with h | h
  · rw [Nat.min_eq_left h, List.take_of_length_le h, List.take_of_length_le (Nat.le_refl _)]
  · rw [Nat.min_eq_right h]

/-- With the flags off, at least 1000 bytes and a geometry found by the probe, the function
returns the encoding of the passing offsets of the scan range, cut at the cap. -/
theorem ldc_eq (buf : RawVec) (max nbeam ncell : Int) (hlen : 1000 ≤ buf.length)
    (hp : probe buf = .ok (nbeam, ncell)) :
    ldc_sontek_adp buf 0 0 0 max
      = .ok (encode (kept max (passing buf (chunk_length 0 0 0 ncell nbeam).toNat 0
          (scan_bound buf.length (chunk_length 0 0 0 ncell nbeam))))) := by
  obtain ⟨hb2, _, hc0⟩ := probe_facts hp
  have hch := chunk_length_ge hb2 hc0
  generalize hP : passing buf (chunk_length 0 0 0 ncell nbeam).toNat 0
    (scan_bound buf.length (chunk_length 0 0 0 ncell nbeam)) = P
  have hbound : 0 < scan_bound buf.length (chunk_length 0 0 0 ncell nbeam) →
      0 + scan_bound buf.length (chunk_length 0 0 0 ncell nbeam)
        + (chunk_length 0 0 0 ncell nbeam).toNat + 3 ≤ buf.length := by
    unfold scan_bound
    omega
  unfold ldc_sontek_adp
  simp only [ne_eq, not_true_eq_false, if_false, first_look, gt_iff_lt,
    Nat.not_lt.mpr hlen, hp]
  by_cases hm : max ≤ 0
  · have hmax : (if max < 0 then 0 else max) = 0 := by split <;> omega
    rw [hmax, count_loop_uncapped buf _ _ 0 0 hbound, hP]
    simp only [Nat.zero_add, kept, hm, if_true]
    by_cases hpos : P.length > 0
    · obtain ⟨s1, hs1, hpres⟩ := collect_loop_pres buf (chunk_length 0 0 0 ncell nbeam).toNat
        P.length _ 0 ⟨List.replicate P.length none, 0, []⟩ hbound (by simp) (by simp)
      rw [if_pos hpos, hs1]
      simp only [hpres, hP]
      rw [fill_replicate P P.length (Nat.le_refl _), List.take_of_length_le (Nat.le_refl _),
        encode_of_ne_nil (List.ne_nil_of_length_pos hpos)]
    · rw [if_neg hpos]
      have : P = [] := List.eq_nil_of_length_eq_zero (by omega)
      rw [this]; rfl
  · have hmax : (if max < 0 then 0 else max) = max := by split <;> omega
    rw [hmax, count_loop_capped buf _ max (by omega) _ 0 0 hbound (by simp; omega), hP]
    simp only [Nat.zero_add, kept, hm, if_false]
    by_cases hpos : min P.length max.toNat > 0
    · obtain ⟨s1, hs1, hpres⟩ := collect_loop_pres buf (chunk_length 0 0 0 ncell nbeam).toNat
        (min P.length max.toNat) _ 0 ⟨List.replicate (min P.length max.toNat) none, 0, []⟩
        hbound (by simp) (by simp)
      rw [if_pos hpos, hs1]
      simp only [hpres, hP]
      rw [fill_replicate P _ (Nat.min_le_left _ _), take_min_length]
      have hne : P.take max.toNat ≠ [] := by
        intro h0
        have := congrArg List.length h0
        simp only [List.length_take, List.length_nil] at this
        omega
      rw [encode_of_ne_nil hne]
    · rw [if_neg hpos]
      have : P = [] := List.eq_nil_of_length_eq_zero (by omega)
      rw [this, List.take_nil]; rfl

theorem ldc_ok_inv {buf : RawVec} {have_ctd have_gps have_bottom_track max : Int}
    {res : List (Option Int)}
    (h : ldc_sontek_adp buf have_ctd have_gps have_bottom_track max = .ok res) :
    have_ctd = 0 ∧ have_gps = 0 ∧ have_bottom_track = 0 ∧ 1000 ≤ buf.length
      ∧ ∃ nbeam ncell, probe buf = .ok (nbeam, ncell) := by
  unfold ldc_sontek_adp at h
  by_cases h1 : have_ctd = 0
  · by_cases h2 : have_bottom_track = 0
    · by_cases h3 : have_gps = 0
      · by_cases h4 : first_look > buf.length
        · simp [h1, h2, h3, h4] at h
        · simp only [first_look, gt_iff_lt, Nat.not_lt] at h4
          refine ⟨h1, h3, h2, h4, ?_⟩
          cases hp : probe buf with
          | error e => simp [h1, h2, h3, first_look, Nat.not_lt.mpr h4, hp] at h
          | ok g => exact ⟨g.1, g.2, rfl⟩
      · simp [h1, h2, h3] at h
    · simp [h1, h2] at h
  · simp [h1] at h

theorem mem_kept {max : Int} {js : List Nat} {i : Nat} (h : i ∈ kept max js) : i ∈ js := by
  unfold kept at h
  split at h
  · exact h
  · exact List.mem_of_mem_take h

theorem kept_eq_nil_iff {max : Int} {js : List Nat} : kept max js = [] ↔ js = [] := by
  unfold kept
  split
  · rfl
  · rename_i hm
    constructor
    · intro h
      cases js with
      | nil => rfl
      | cons j js =>
        have h1 : 0 < max.toNat := by omega
        obtain ⟨m, hm1⟩ := Nat.exists_eq_succ_of_ne_zero (Nat.pos_iff_ne_zero.mp h1)
        rw [hm1] at h
        simp at h
    · intro h; rw [h]; simp

theorem encode_eq_sentinel_iff {js : List Nat} : encode js = [some 0] ↔ js = [] := by
  constructor
  · intro h
    cases js with
    | nil => rfl
    | cons j js =>
      simp only [encode, List.map_cons, reported, List.cons.injEq, Option.some.injEq] at h
      omega
  · intro h; rw [h]; rfl

theorem mem_encode {js : List Nat} {r : Option Int} (hne : js ≠ []) (h : r ∈ encode js) :
    ∃ i, i ∈ js ∧ r = reported i := by
  rw [encode_of_ne_nil hne, List.mem_map] at h
  obtain ⟨i, hi, he⟩ := h
  exact ⟨i, hi, he.symm⟩

theorem kept_sorted (max : Int) {js : List Nat} (h : js.Pairwise (fun a b => a < b)) :
    (kept max js).Pairwise (fun a b => a < b) := by
  unfold kept
  split
  · exact h
  · exact h.sublist (List.take_sublist _ _)

theorem encode_increasing {js : List Nat} (h : js.Pairwise (fun a b => a < b)) :
    ∃ xs : List Int, encode js = xs.map some ∧ xs.Pairwise (fun a b => a < b) := by
  cases js with
  | nil => exact ⟨[0], rfl, by simp⟩
  | cons j js =>
    refine ⟨List.map (fun (i : Nat) => (i : Int) + 1) (j :: js), ?_, ?_⟩
    · simp [encode, reported]
    · exact h.map _ (fun a b hab => by show (a : Int) + 1 < (b : Int) + 1; omega)

theorem scan_range_inside {lbuf i : Nat} {chunk : Int} (hc : 0 ≤ chunk)
    (hi : i < scan_bound lbuf chunk) : i + chunk.toNat + 3 < lbuf := by
  unfold scan_bound at hi
  omega

/-- The probe loop leaves at the first sync match of its range. -/
theorem probe_loop_first (pbuf : RawVec) :
    ∀ (n i d : Nat), d < n → (∀ q, i ≤ q → q < i + d → ¬ SyncAt pbuf q) →
      SyncAt pbuf (i + d) → i + d + 2 < pbuf.length →
      probe_loop pbuf n i = header_at pbuf (i + d) := by
  intro n
  induction n with
  | zero => intro i d hd; omega
  | succ n ih =>
    intro i d hd hno hs hin
    unfold probe_loop
    rw [sync_at_ok (show i + 2 < pbuf.length by omega)]
    cases d with
    | zero => simp [show SyncAt pbuf i from hs]
    | succ d =>
      have h0 : ¬ SyncAt pbuf i := hno i (Nat.le_refl _) (by omega)
      simp only [h0, decide_False]
      have := ih (i + 1) d (by omega) (fun q h1 h2 => hno q (by omega) (by omega))
        (by rw [show i + 1 + d = i + (d + 1) by omega]; exact hs) (by omega)
      rw [this, show i + 1 + d = i + (d + 1) by omega]

/-- A first sync match at `p ≤ 996` with its header inside the buffer and a beam count of 2 or
3 settles the geometry. -/
theorem probe_of_first_sync {pbuf : RawVec} {p : Nat} (hp : p ≤ 996)
    (hno : ∀ q, q < p → ¬ SyncAt pbuf q) (hs : SyncAt pbuf p) (hin : p + 31 < pbuf.length)
    (hb : (pbuf.byte (p + 26)).val = 2 ∨ (pbuf.byte (p + 26)).val = 3) :
    probe pbuf = .ok (((pbuf.byte (p + 26)).val : Int), ((stored16 pbuf (p + 30) : Nat) : Int)) := by
  have h := probe_loop_first pbuf (first_look - 3) 0 p (by simp only [first_look]; omega)
    (fun q _ h2 => hno q (by omega)) (by rw [Nat.zero_add]; exact hs) (by omega)
  rw [Nat.zero_add, header_at_of_lt hin] at h
  unfold probe
  rw [h, if_neg (by omega)]
  simp only
  rw [if_neg (by omega)]

theorem chunk_length_eq (b c : Nat) :
    chunk_length 0 0 0 (c : Int) (b : Int) = ((80 + 4 * b * c : Nat) : Int) := by
  simp only [chunk_length, ne_eq, not_true_eq_false, if_false]
  push_cast
  ring

theorem rd_error_kind {pbuf : RawVec} {j : Nat} {e : Abort} (h : rd pbuf j = .error e) :
    e = .out_of_bounds := by
  unfold rd at h
  split at h
  · cases h
  · injection h with h; exact h.symm

theorem sync_at_error_kind {pbuf : RawVec} {i : Nat} {e : Abort}
    (h : sync_at pbuf i = .error e) : e = .out_of_bounds := by
  unfold sync_at at h
  split at h
  · rename_i e1 h1
    injection h with h; subst h; exact rd_error_kind h1
  · split at h
    · cases h
    · split at h
      · rename_i e1 h1
        injection h with h; subst h; exact rd_error_kind h1
      · split at h
        · cases h
        · split at h
          · rename_i e1 h1
            injection h with h; subst h; exact rd_error_kind h1
          · cases h

theorem header_at_error_kind {pbuf : RawVec} {i : Nat} {e : Abort}
    (h : header_at pbuf i = .error e) : e ≠ .short_buffer := by
  by_cases hlt : i + 31 < pbuf.length
  · rw [header_at_of_lt hlt] at h
    split at h
    · injection h with h; subst h; intro hh; cases hh
    · cases h
  · rw [header_at_of_ge (Nat.not_lt.mp hlt)] at h
    injection h with h; subst h; intro hh; cases hh

theorem probe_loop_error_kind (pbuf : RawVec) {e : Abort} :
    ∀ (n i : Nat), probe_loop pbuf n i = .error e → e ≠ .short_buffer := by
  intro n
  induction n with
  | zero => intro i h; simp [probe_loop] at h
  | succ n ih =>
    intro i h
    unfold probe_loop at h
    split at h
    · rename_i e1 h1
      injection h with h; subst h
      rw [sync_at_error_kind h1]; intro hh; cases hh
    · exact ih (i + 1) h
    · exact header_at_error_kind h

theorem probe_error_kind {pbuf : RawVec} {e : Abort} (h : probe pbuf = .error e) :
    e ≠ .short_buffer := by
  unfold probe at h
  split at h
  · rename_i e1 h1
    injection h with h; subst h
    exact probe_loop_error_kind pbuf _ _ h1
  · split at h
    · injection h with h; subst h; intro hh; cases hh
    · cases h

theorem ldc_of_probe_error {buf : RawVec} {e : Abort} (max : Int) (hlen : 1000 ≤ buf.length)
    (hp : probe buf = .error e) : ldc_sontek_adp buf 0 0 0 max = .error e := by
  unfold ldc_sontek_adp
  simp only [ne_eq, not_true_eq_false, if_false, first_look, gt_iff_lt,
    Nat.not_lt.mpr hlen, hp]

theorem kept_cons (max : Int) (j : Nat) (js : List Nat) :
    ∃ t, kept max (j :: js) = j :: t := by
  unfold kept
  split
  · exact ⟨js, rfl⟩
  · rename_i hm
    obtain ⟨m, hm1⟩ := Nat.exists_eq_succ_of_ne_zero
      (Nat.pos_iff_ne_zero.mp (show 0 < max.toNat by omega))
    rw [hm1]
    exact ⟨js.take m, rfl⟩

theorem kept_of_nonpos {max : Int} (h : max ≤ 0) (js : List Nat) : kept max js = js := by
  unfold kept
  rw [if_pos h]

/-- When offset 0 is in the scan range and passes, the vector starts with 1. -/
theorem head_encode_kept_passing {pbuf : RawVec} {L n : Nat} (max : Int) (hn : 0 < n)
    (hpass : Passes pbuf L 0) :
    (encode (kept max (passing pbuf L 0 n))).head? = some (some 1) := by
  obtain ⟨m, hm⟩ := Nat.exists_eq_succ_of_ne_zero (Nat.pos_iff_ne_zero.mp hn)
  rw [hm, passing_succ_of_passes m hpass]
  obtain ⟨t, ht⟩ := kept_cons max 0 (passing pbuf L (0 + 1) m)
  rw [ht]
  simp [encode, reported]

/-! ## The claims -/

set_option maxRecDepth 200000

/-- C1. Soundness of the reported offsets: on a buffer of at least 1000 bytes with the three
flags off, for every `max`, when the call returns a vector other than the sentinel `[0]`,
every element of it is a written slot `i + 1` for an offset `i` at which the three sync bytes
stand, `i + L + 1` is an index of the buffer, and `(0xA596 + sum of bytes i .. i+L-1) mod 2^16`
equals `byte[i+L] + 256 * byte[i+L+1]`, `L` being the frame length derived by the probe. -/
theorem C1_reported_offsets_sound (buf : RawVec) (max nbeam ncell : Int)
    (res : List (Option Int)) (hlen : 1000 ≤ buf.length)
    (hp : probe buf = .ok (nbeam, ncell))
    (hres : ldc_sontek_adp buf 0 0 0 max = .ok res) (hne : res ≠ [some 0]) :
    ∀ r ∈ res, ∃ i : Nat, r = some ((i : Int) + 1)
      ∧ ((buf.byte i).val = 0xA5 ∧ (buf.byte (i + 1)).val = 0x10
          ∧ (buf.byte (i + 2)).val = 0x50)
      ∧ i + (chunk_length 0 0 0 ncell nbeam).toNat + 1 < buf.length
      ∧ (0xA596 + byte_sum buf i (chunk_length 0 0 0 ncell nbeam).toNat) % 65536
          = (buf.byte (i + (chunk_length 0 0 0 ncell nbeam).toNat)).val
            + 256 * (buf.byte (i + (chunk_length 0 0 0 ncell nbeam).toNat + 1)).val := by
  intro r hr
  obtain ⟨hb2, _, hc0⟩ := probe_facts hp
  have hch := chunk_length_ge hb2 hc0
  rw [ldc_eq buf max nbeam ncell hlen hp] at hres
  injection hres with hres
  subst hres
  have hk : kept max (passing buf (chunk_length 0 0 0 ncell nbeam).toNat 0
      (scan_bound buf.length (chunk_length 0 0 0 ncell nbeam))) ≠ [] :=
    fun h0 => hne (encode_eq_sentinel_iff.mpr h0)
  obtain ⟨i, hi, hri⟩ := mem_encode hk hr
  obtain ⟨⟨_, hlt⟩, hpass⟩ := mem_passing.mp (mem_kept hi)
  have hin := scan_range_inside (show 0 ≤ chunk_length 0 0 0 ncell nbeam by omega)
    (show i < scan_bound buf.length (chunk_length 0 0 0 ncell nbeam) by omega)
  exact ⟨i, hri, hpass.1, by omega, hpass.2⟩

/-- C1 at `buf_one` without a cap: the probe derives 2 beams and 0 cells and the call
returns `[1]`. -/
theorem C1_reported_offsets_sound_witness :
    (1000 ≤ buf_one.length ∧ probe buf_one = .ok (2, 0)
      ∧ ldc_sontek_adp buf_one 0 0 0 (-1) = .ok [some 1] ∧ [some (1 : Int)] ≠ [some 0])
    ∧ ∀ r ∈ [some (1 : Int)], ∃ i : Nat, r = some ((i : Int) + 1)
      ∧ ((buf_one.byte i).val = 0xA5 ∧ (buf_one.byte (i + 1)).val = 0x10
          ∧ (buf_one.byte (i + 2)).val = 0x50)
      ∧ i + (chunk_length 0 0 0 0 2).toNat + 1 < buf_one.length
      ∧ (0xA596 + byte_sum buf_one i (chunk_length 0 0 0 0 2).toNat) % 65536
          = (buf_one.byte (i + (chunk_length 0 0 0 0 2).toNat)).val
            + 256 * (buf_one.byte (i + (chunk_length 0 0 0 0 2).toNat + 1)).val :=
  ⟨⟨by decide, by decide, by decide, by decide⟩,
    C1_reported_offsets_sound buf_one (-1) 2 0 [some 1] (by decide) (by decide) (by decide)
      (by decide)⟩

/-- C2 as stated fails at `buf_tail`: the frame at offset 917 = 1000 - 3 - 80 passes the
sync-and-checksum test and lies in the range `0 ≤ i ≤ bufferLength - 3 - L`, yet the uncapped
call returns the sentinel `[0]` and not the offset 917 (as 918). -/
theorem C2_upper_bound_included_fails :
    1000 ≤ buf_tail.length ∧ probe buf_tail = .ok (2, 0)
      ∧ ((917 : Nat) : Int) ≤ (buf_tail.length : Int) - 3 - chunk_length 0 0 0 0 2
      ∧ Passes buf_tail (chunk_length 0 0 0 0 2).toNat 917
      ∧ ldc_sontek_adp buf_tail 0 0 0 (-1) = .ok [some 0]
      ∧ some (((917 : Nat) : Int) + 1) ∉ [some (0 : Int)] := by
  decide

/-- C2, amended. Completeness over the range the scanner tests: on a buffer of at least 1000
bytes with the flags off and `max` negative, `L` being the frame length derived by the probe,
the call succeeds and every offset `i` with `0 ≤ i < bufferLength - 3 - L` (the upper bound
excluded) that passes the sync-and-checksum test is in the result, as `i + 1`. -/
theorem C2_complete_below_bound (buf : RawVec) (max nbeam ncell : Int) (i : Nat)
    (hlen : 1000 ≤ buf.length) (hmax : max < 0) (hp : probe buf = .ok (nbeam, ncell))
    (hi : (i : Int) < (buf.length : Int) - 3 - chunk_length 0 0 0 ncell nbeam)
    (hpass : Passes buf (chunk_length 0 0 0 ncell nbeam).toNat i) :
    ∃ res, ldc_sontek_adp buf 0 0 0 max = .ok res ∧ some ((i : Int) + 1) ∈ res := by
  refine ⟨_, ldc_eq buf max nbeam ncell hlen hp, ?_⟩
  have hmem : i ∈ passing buf (chunk_length 0 0 0 ncell nbeam).toNat 0
      (scan_bound buf.length (chunk_length 0 0 0 ncell nbeam)) :=
    mem_passing.mpr ⟨⟨Nat.zero_le _, by unfold scan_bound; omega⟩, hpass⟩
  have hk : kept max (passing buf (chunk_length 0 0 0 ncell nbeam).toNat 0
      (scan_bound buf.length (chunk_length 0 0 0 ncell nbeam)))
      = passing buf (chunk_length 0 0 0 ncell nbeam).toNat 0
        (scan_bound buf.length (chunk_length 0 0 0 ncell nbeam)) := by
    unfold kept
    rw [if_pos (by omega)]
  rw [hk, encode_of_ne_nil (List.ne_nil_of_mem hmem)]
  exact List.mem_map.mpr ⟨i, hmem, rfl⟩

/-- C2 amended, at `buf_one` with `max = -1` and the frame at offset 0. -/
theorem C2_complete_below_bound_witness :
    (1000 ≤ buf_one.length ∧ (-1 : Int) < 0 ∧ probe buf_one = .ok (2, 0)
      ∧ ((0 : Nat) : Int) < (buf_one.length : Int) - 3 - chunk_length 0 0 0 0 2
      ∧ Passes buf_one (chunk_length 0 0 0 0 2).toNat 0)
    ∧ ∃ res, ldc_sontek_adp buf_one 0 0 0 (-1) = .ok res ∧ some (((0 : Nat) : Int) + 1) ∈ res :=
  ⟨⟨by decide, by decide, by decide, by decide, by decide⟩,
    C2_complete_below_bound buf_one (-1) 2 0 0 (by decide) (by decide) (by decide) (by decide)
      (by decide)⟩

/-- C3. Cap behaviour for a positive cap: on a buffer of at least 1000 bytes with the flags
off and `max = m ≥ 1`, when more than `m` offsets of the scan range pass the sync-and-checksum
test, the call returns exactly `m` elements: the `m` smallest passing offsets in ascending
order, each as offset + 1. -/
theorem C3_positive_cap (buf : RawVec) (max nbeam ncell : Int)
    (hlen : 1000 ≤ buf.length) (hmax : 1 ≤ max) (hp : probe buf = .ok (nbeam, ncell))
    (hk : max.toNat < (passing buf (chunk_length 0 0 0 ncell nbeam).toNat 0
      (scan_bound buf.length (chunk_length 0 0 0 ncell nbeam))).length) :
    ∃ res, ldc_sontek_adp buf 0 0 0 max = .ok res
      ∧ res.length = max.toNat
      ∧ res = ((passing buf (chunk_length 0 0 0 ncell nbeam).toNat 0
          (scan_bound buf.length (chunk_length 0 0 0 ncell nbeam))).take max.toNat).map
            (fun (i : Nat) => some ((i : Int) + 1)) := by
  refine ⟨_, ldc_eq buf max nbeam ncell hlen hp, ?_⟩
  generalize passing buf (chunk_length 0 0 0 ncell nbeam).toNat 0
    (scan_bound buf.length (chunk_length 0 0 0 ncell nbeam)) = P at hk
  have hkept : kept max P = P.take max.toNat := by
    unfold kept
    rw [if_neg (by omega)]
  have hne : P.take max.toNat ≠ [] := by
    intro h0
    have := congrArg List.length h0
    simp only [List.length_take, List.length_nil] at this
    omega
  rw [hkept, encode_of_ne_nil hne]
  refine ⟨?_, rfl⟩
  rw [List.length_map, List.length_take]
  omega

/-- C3 at `buf_two` with `max = 1`: two offsets pass (0 and 82), one is returned. -/
theorem C3_positive_cap_witness :
    (1000 ≤ buf_two.length ∧ (1 : Int) ≤ 1 ∧ probe buf_two = .ok (2, 0)
      ∧ (1 : Int).toNat < (passing buf_two (chunk_length 0 0 0 0 2).toNat 0
          (scan_bound buf_two.length (chunk_length 0 0 0 0 2))).length)
    ∧ ∃ res, ldc_sontek_adp buf_two 0 0 0 1 = .ok res
      ∧ res.length = (1 : Int).toNat
      ∧ res = ((passing buf_two (chunk_length 0 0 0 0 2).toNat 0
          (scan_bound buf_two.length (chunk_length 0 0 0 0 2))).take (1 : Int).toNat).map
            (fun (i : Nat) => some ((i : Int) + 1)) :=
  ⟨⟨by decide, by decide, by decide, by decide⟩,
    C3_positive_cap buf_two 1 2 0 (by decide) (by decide) (by decide) (by decide)⟩

/-- C4 as stated fails at `buf_one`: with `max = 0` the call does not return the zero-match
encoding `[0]`; it reports the frame at offset 0, as 1. -/
theorem C4_zero_cap_reports_frames :
    1000 ≤ buf_one.length
      ∧ ldc_sontek_adp buf_one 0 0 0 0 = .ok [some 1]
      ∧ ldc_sontek_adp buf_one 0 0 0 0 ≠ .ok [some 0] := by
  decide

/-- C4, amended. A cap of zero is no cap: `max` is unlimited when it is negative or 0, and
only a positive value bounds the number of frames returned. On a buffer of at least 1000
bytes with the flags off, the call with `max = 0` returns what the call with a negative `max`
returns, and every passing offset `i < bufferLength - 3 - L` is in it, as `i + 1`. -/
theorem C4_zero_is_unlimited (buf : RawVec) (max nbeam ncell : Int)
    (hlen : 1000 ≤ buf.length) (hmax : max < 0) (hp : probe buf = .ok (nbeam, ncell)) :
    ldc_sontek_adp buf 0 0 0 0 = ldc_sontek_adp buf 0 0 0 max
      ∧ ∃ res, ldc_sontek_adp buf 0 0 0 0 = .ok res
        ∧ ∀ i : Nat, (i : Int) < (buf.length : Int) - 3 - chunk_length 0 0 0 ncell nbeam →
            Passes buf (chunk_length 0 0 0 ncell nbeam).toNat i → some ((i : Int) + 1) ∈ res := by
  refine ⟨?_, _, ldc_eq buf 0 nbeam ncell hlen hp, ?_⟩
  · rw [ldc_eq buf 0 nbeam ncell hlen hp, ldc_eq buf max nbeam ncell hlen hp,
      kept_of_nonpos (Int.le_refl 0), kept_of_nonpos (Int.le_of_lt hmax)]
  · intro i hi hpass
    have hmem : i ∈ passing buf (chunk_length 0 0 0 ncell nbeam).toNat 0
        (scan_bound buf.length (chunk_length 0 0 0 ncell nbeam)) :=
      mem_passing.mpr ⟨⟨Nat.zero_le _, by unfold scan_bound; omega⟩, hpass⟩
    rw [kept_of_nonpos (Int.le_refl 0), encode_of_ne_nil (List.ne_nil_of_mem hmem)]
    exact List.mem_map.mpr ⟨i, hmem, rfl⟩

/-- C4 amended, at `buf_two` against `max = -1`. -/
theorem C4_zero_is_unlimited_witness :
    (1000 ≤ buf_two.length ∧ (-1 : Int) < 0 ∧ probe buf_two = .ok (2, 0))
    ∧ (ldc_sontek_adp buf_two 0 0 0 0 = ldc_sontek_adp buf_two 0 0 0 (-1)
      ∧ ∃ res, ldc_sontek_adp buf_two 0 0 0 0 = .ok res
        ∧ ∀ i : Nat, (i : Int) < (buf_two.length : Int) - 3 - chunk_length 0 0 0 0 2 →
            Passes buf_two (chunk_length 0 0 0 0 2).toNat i → some ((i : Int) + 1) ∈ res) :=
  ⟨⟨by decide, by decide, by decide⟩,
    C4_zero_is_unlimited buf_two (-1) 2 0 (by decide) (by decide) (by decide)⟩

/-- C5. Ordering: whenever the call succeeds, for any flags and any `max`, every slot of the
returned vector is written and the values are strictly increasing: for all positions
`j < j'`, `result[j] < result[j']`. -/
theorem C5_strictly_increasing (buf : RawVec) (have_ctd have_gps have_bottom_track max : Int)
    (res : List (Option Int))
    (hres : ldc_sontek_adp buf have_ctd have_gps have_bottom_track max = .ok res) :
    ∃ xs : List Int, res = xs.map some
      ∧ ∀ (j j' : Nat) (hj : j < j') (hj' : j' < xs.length),
          xs.get ⟨j, Nat.lt_trans hj hj'⟩ < xs.get ⟨j', hj'⟩ := by
  obtain ⟨h1, h2, h3, hlen, nbeam, ncell, hp⟩ := ldc_ok_inv hres
  subst h1 h2 h3
  rw [ldc_eq buf max nbeam ncell hlen hp] at hres
  injection hres with hres
  obtain ⟨xs, hxs, hsorted⟩ := encode_increasing (kept_sorted max (passing_sorted buf
    (chunk_length 0 0 0 ncell nbeam).toNat 0
    (scan_bound buf.length (chunk_length 0 0 0 ncell nbeam))))
  refine ⟨xs, by rw [← hres, hxs], ?_⟩
  intro j j' hj hj'
  exact List.pairwise_iff_get.mp hsorted ⟨j, Nat.lt_trans hj hj'⟩ ⟨j', hj'⟩ hj

/-- C5 at `buf_two` without a cap: the call returns `[1, 83]`. -/
theorem C5_strictly_increasing_witness :
    ldc_sontek_adp buf_two 0 0 0 (-1) = .ok [some 1, some 83]
    ∧ ∃ xs : List Int, [some (1 : Int), some 83] = xs.map some
      ∧ ∀ (j j' : Nat) (hj : j < j') (hj' : j' < xs.length),
          xs.get ⟨j, Nat.lt_trans hj hj'⟩ < xs.get ⟨j', hj'⟩ :=
  ⟨by decide, C5_strictly_increasing buf_two 0 0 0 (-1) [some 1, some 83] (by decide)⟩

/-- C6. Auxiliary flag rejection: for every buffer, of any length and content, and every
`max`, when one of `have_ctd`, `have_gps`, `have_bottom_track` is non-zero the call stops
with one of the three errors that reject an auxiliary stream and returns no vector; no other
error comes first. -/
theorem C6_flag_rejection (buf : RawVec) (have_ctd have_gps have_bottom_track max : Int)
    (h : have_ctd ≠ 0 ∨ have_gps ≠ 0 ∨ have_bottom_track ≠ 0) :
    ∃ e, ldc_sontek_adp buf have_ctd have_gps have_bottom_track max = .error e
      ∧ e.isAuxStream = true := by
  unfold ldc_sontek_adp
  by_cases h1 : have_ctd = 0
  · by_cases h2 : have_bottom_track = 0
    · have h3 : have_gps ≠ 0 := by
        rcases h with h | h | h
        · exact absurd h1 h
        · exact h
        · exact absurd h2 h
      exact ⟨.gps, by simp [h1, h2, h3], rfl⟩
    · exact ⟨.bottom_track, by simp [h1, h2], rfl⟩
  · exact ⟨.ctd, by simp [h1], rfl⟩

/-- C6 at the empty buffer with `have_gps = 1`. -/
theorem C6_flag_rejection_witness :
    ((0 : Int) ≠ 0 ∨ (1 : Int) ≠ 0 ∨ (0 : Int) ≠ 0)
    ∧ ∃ e, ldc_sontek_adp buf_empty 0 1 0 5 = .error e ∧ e.isAuxStream = true :=
  ⟨by decide, C6_flag_rejection buf_empty 0 1 0 5 (by decide)⟩

/-- C7. Minimum buffer length: with the three flags off, the call stops with the error
"fewer than 1000 bytes" if and only if the buffer has fewer than 1000 bytes, whatever the
buffer holds and whatever `max` is. -/
theorem C7_short_buffer_iff (buf : RawVec) (max : Int) :
    ldc_sontek_adp buf 0 0 0 max = .error .short_buffer ↔ buf.length < 1000 := by
  constructor
  · intro h
    by_contra hge
    have hlen : 1000 ≤ buf.length := Nat.not_lt.mp hge
    cases hp : probe buf with
    | error e =>
      rw [ldc_of_probe_error max hlen hp] at h
      injection h with h
      exact probe_error_kind hp h
    | ok g =>
      rw [ldc_eq buf max g.1 g.2 hlen hp] at h
      cases h
  · intro h
    unfold ldc_sontek_adp
    simp [first_look, h]

/-- C8. Smallest accepted buffer: for a buffer of exactly 1000 bytes that holds a valid frame
at offset 0 (sync bytes at 0..2, beam count `b` in {2,3} at byte 26, cell count `c` in bytes
30, 31, `L = 80 + 4*b*c` with `L + 2 ≤ 1000`, and the check sum of bytes `0..L-1` stored at
`L`, `L+1`), with the flags off and any `max`, the call succeeds and the first element of the
returned vector is 1, the frame at offset 0. -/
theorem C8_smallest_buffer (buf : RawVec) (max : Int) (b c : Nat)
    (hlen : buf.length = 1000)
    (h0 : (buf.byte 0).val = 0xA5) (h1 : (buf.byte 1).val = 0x10)
    (h2 : (buf.byte 2).val = 0x50)
    (hb26 : (buf.byte 26).val = b) (hb : b = 2 ∨ b = 3)
    (hc : (buf.byte 30).val + 256 * (buf.byte 31).val = c)
    (hL : 80 + 4 * b * c + 2 ≤ 1000)
    (hsum : (0xA596 + byte_sum buf 0 (80 + 4 * b * c)) % 65536
      = (buf.byte (80 + 4 * b * c)).val + 256 * (buf.byte (80 + 4 * b * c + 1)).val) :
    ∃ res, ldc_sontek_adp buf 0 0 0 max = .ok res ∧ res.head? = some (some 1) := by
  have hsync : SyncAt buf 0 := ⟨h0, h1, h2⟩
  have hp : probe buf = .ok ((b : Int), (c : Int)) := by
    have h := @probe_of_first_sync buf 0 (by omega) (fun q hq => by omega)
      hsync (by omega) (by rw [Nat.zero_add, hb26]; exact hb)
    simp only [Nat.zero_add, stored16] at h
    rw [h, hb26, hc]
  have hL4 : 80 + 4 * b * c = 80 + 4 * (b * c) := by rw [Nat.mul_assoc]
  have hpass : Passes buf (80 + 4 * b * c) 0 := by
    refine ⟨hsync, ?_⟩
    rw [hsum, Nat.zero_add, stored16]
  have hn : 0 < scan_bound buf.length ((80 + 4 * b * c : Nat) : Int) := by
    unfold scan_bound
    rw [hlen, hL4]
    rw [hL4] at hL
    omega
  refine ⟨_, ldc_eq buf max b c (by omega) hp, ?_⟩
  rw [chunk_length_eq, Int.toNat_ofNat]
  exact head_encode_kept_passing max hn hpass

/-- C8 at `buf_one` with `max = 7`: 2 beams, 0 cells, `L = 80`. -/
theorem C8_smallest_buffer_witness :
    (buf_one.length = 1000
      ∧ (buf_one.byte 0).val = 0xA5 ∧ (buf_one.byte 1).val = 0x10
      ∧ (buf_one.byte 2).val = 0x50
      ∧ (buf_one.byte 26).val = 2 ∧ ((2 : Nat) = 2 ∨ (2 : Nat) = 3)
      ∧ (buf_one.byte 30).val + 256 * (buf_one.byte 31).val = 0
      ∧ 80 + 4 * 2 * 0 + 2 ≤ 1000
      ∧ (0xA596 + byte_sum buf_one 0 (80 + 4 * 2 * 0)) % 65536
        = (buf_one.byte (80 + 4 * 2 * 0)).val + 256 * (buf_one.byte (80 + 4 * 2 * 0 + 1)).val)
    ∧ ∃ res, ldc_sontek_adp buf_one 0 0 0 7 = .ok res ∧ res.head? = some (some 1) :=
  ⟨⟨by decide, by decide, by decide, by decide, by decide, by decide, by decide, by decide,
      by decide⟩,
    C8_smallest_buffer buf_one 7 2 0 (by decide) (by decide) (by decide) (by decide)
      (by decide) (by decide) (by decide) (by decide) (by decide)⟩

/-- C9 as stated fails at `buf_shadow`: the first valid frame starts at offset 3 (no valid
frame starts at 0, 1 or 2) with 2 beams and 0 cells, but the three sync bytes also stand at
offset 0, where byte 26 is 0; the probe stops there with the error on the number of beams and
derives no geometry, and so does the whole call. -/
theorem C9_first_valid_frame_fails :
    1000 ≤ buf_shadow.length
      ∧ FrameAt buf_shadow 3 ∧ (∀ q, q < 3 → ¬ FrameAt buf_shadow q)
      ∧ (buf_shadow.byte (3 + 26)).val = 2 ∧ stored16 buf_shadow (3 + 30) = 0
      ∧ probe buf_shadow = .error (.beams 0)
      ∧ probe buf_shadow ≠ .ok (2, 0)
      ∧ ldc_sontek_adp buf_shadow 0 0 0 (-1) = .error (.beams 0) := by
  decide

/-- C9, amended. Geometry of the first sync occurrence: on a buffer of at least 1000 bytes
with the flags off, when the lowest offset `p` at which the sync bytes stand is at most 996
and starts a valid frame (beam count `b` in {2,3} at `p+26`, cell count `c` at `p+30`, `p+31`,
the frame complete and its check sum correct), the probe does not fail and derives exactly
`(b, c)`, the frame length is `80 + 4*b*c`, and that is the length the scanner uses. -/
theorem C9_geometry_of_first_sync (buf : RawVec) (p : Nat)
    (hlen : 1000 ≤ buf.length) (hp : p ≤ 996)
    (hfirst : ∀ q, q < p → ¬ SyncAt buf q) (hframe : FrameAt buf p) :
    probe buf = .ok (((buf.byte (p + 26)).val : Int), ((stored16 buf (p + 30) : Nat) : Int))
      ∧ chunk_length 0 0 0 ((stored16 buf (p + 30) : Nat) : Int) ((buf.byte (p + 26)).val : Int)
          = ((80 + 4 * (buf.byte (p + 26)).val * stored16 buf (p + 30) : Nat) : Int)
      ∧ ∀ max : Int, ldc_sontek_adp buf 0 0 0 max
          = .ok (encode (kept max
              (passing buf (80 + 4 * (buf.byte (p + 26)).val * stored16 buf (p + 30)) 0
                (scan_bound buf.length
                  ((80 + 4 * (buf.byte (p + 26)).val * stored16 buf (p + 30) : Nat) : Int))))) := by
  obtain ⟨hs, hb, hin, _⟩ := hframe
  have hprobe := probe_of_first_sync hp hfirst hs (by omega) hb
  refine ⟨hprobe, chunk_length_eq _ _, ?_⟩
  intro max
  rw [ldc_eq buf max _ _ hlen hprobe, chunk_length_eq, Int.toNat_ofNat]

/-- C9 amended, at `buf_one`: the first sync occurrence is at offset 0 and starts a valid
frame with 2 beams and 0 cells. -/
theorem C9_geometry_of_first_sync_witness :
    (1000 ≤ buf_one.length ∧ 0 ≤ 996 ∧ (∀ q, q < 0 → ¬ SyncAt buf_one q) ∧ FrameAt buf_one 0)
    ∧ (probe buf_one
        = .ok (((buf_one.byte (0 + 26)).val : Int), ((stored16 buf_one (0 + 30) : Nat) : Int))
      ∧ chunk_length 0 0 0 ((stored16 buf_one (0 + 30) : Nat) : Int)
          ((buf_one.byte (0 + 26)).val : Int)
          = ((80 + 4 * (buf_one.byte (0 + 26)).val * stored16 buf_one (0 + 30) : Nat) : Int)
      ∧ ∀ max : Int, ldc_sontek_adp buf_one 0 0 0 max
          = .ok (encode (kept max
              (passing buf_one
                (80 + 4 * (buf_one.byte (0 + 26)).val * stored16 buf_one (0 + 30)) 0
                (scan_bound buf_one.length
                  ((80 + 4 * (buf_one.byte (0 + 26)).val * stored16 buf_one (0 + 30) : Nat)
                    : Int)))))) :=
  ⟨⟨by decide, by decide, by decide, by decide⟩,
    C9_geometry_of_first_sync buf_one 0 (by decide) (by decide) (by decide) (by decide)⟩

/-- C10. Zero-match encoding: on a buffer of at least 1000 bytes with the flags off on which
the call succeeds, for every `max` (negative, or at least 1, or 0), `L` being the frame
length derived by the probe: the result is `[0]` if and only if no offset of the scan range
`0 ≤ i < bufferLength - 3 - L` passes the sync-and-checksum test; otherwise every element is
a written slot holding `i + 1 ≥ 1` for a passing offset `i` of the scan range; and a passing
offset 0 is reported first, as 1. -/
theorem C10_zero_match_encoding (buf : RawVec) (max nbeam ncell : Int)
    (res : List (Option Int)) (hlen : 1000 ≤ buf.length)
    (hp : probe buf = .ok (nbeam, ncell))
    (hres : ldc_sontek_adp buf 0 0 0 max = .ok res) :
    (res = [some 0] ↔
        ∀ i, i < scan_bound buf.length (chunk_length 0 0 0 ncell nbeam) →
          ¬ Passes buf (chunk_length 0 0 0 ncell nbeam).toNat i)
      ∧ (res ≠ [some 0] → ∀ r ∈ res, ∃ i : Nat,
          i < scan_bound buf.length (chunk_length 0 0 0 ncell nbeam)
          ∧ Passes buf (chunk_length 0 0 0 ncell nbeam).toNat i
          ∧ r = some ((i : Int) + 1) ∧ (1 : Int) ≤ (i : Int) + 1)
      ∧ (0 < scan_bound buf.length (chunk_length 0 0 0 ncell nbeam) →
          Passes buf (chunk_length 0 0 0 ncell nbeam).toNat 0 →
          res.head? = some (some 1)) := by
  rw [ldc_eq buf max nbeam ncell hlen hp] at hres
  injection hres with hres
  subst hres
  refine ⟨?_, ?_, ?_⟩
  · rw [encode_eq_sentinel_iff, kept_eq_nil_iff]
    constructor
    · intro h i hi hpass
      have hmem : i ∈ passing buf (chunk_length 0 0 0 ncell nbeam).toNat 0
          (scan_bound buf.length (chunk_length 0 0 0 ncell nbeam)) :=
        mem_passing.mpr ⟨⟨Nat.zero_le _, by omega⟩, hpass⟩
      rw [h] at hmem
      cases hmem
    · intro h
      apply List.eq_nil_iff_forall_not_mem.mpr
      intro i hi
      obtain ⟨⟨_, hlt⟩, hpass⟩ := mem_passing.mp hi
      exact h i (by omega) hpass
  · intro hne r hr
    have hk : kept max (passing buf (chunk_length 0 0 0 ncell nbeam).toNat 0
        (scan_bound buf.length (chunk_length 0 0 0 ncell nbeam))) ≠ [] :=
      fun h0 => hne (encode_eq_sentinel_iff.mpr h0)
    obtain ⟨i, hi, hri⟩ := mem_encode hk hr
    obtain ⟨⟨_, hlt⟩, hpass⟩ := mem_passing.mp (mem_kept hi)
    exact ⟨i, by omega, hpass, hri, by omega⟩
  · intro hn hpass
    exact head_encode_kept_passing max hn hpass

/-- C10 at `buf_one` without a cap: offset 0 passes and the call returns `[1]`. -/
theorem C10_zero_match_encoding_witness :
    (1000 ≤ buf_one.length ∧ probe buf_one = .ok (2, 0)
      ∧ ldc_sontek_adp buf_one 0 0 0 (-1) = .ok [some 1])
    ∧ (([some (1 : Int)] = [some 0] ↔
        ∀ i, i < scan_bound buf_one.length (chunk_length 0 0 0 0 2) →
          ¬ Passes buf_one (chunk_length 0 0 0 0 2).toNat i)
      ∧ ([some (1 : Int)] ≠ [some 0] → ∀ r ∈ [some (1 : Int)], ∃ i : Nat,
          i < scan_bound buf_one.length (chunk_length 0 0 0 0 2)
          ∧ Passes buf_one (chunk_length 0 0 0 0 2).toNat i
          ∧ r = some ((i : Int) + 1) ∧ (1 : Int) ≤ (i : Int) + 1)
      ∧ (0 < scan_bound buf_one.length (chunk_length 0 0 0 0 2) →
          Passes buf_one (chunk_length 0 0 0 0 2).toNat 0 →
          [some (1 : Int)].head? = some (some 1))) :=
  ⟨⟨by decide, by decide, by decide⟩,
    C10_zero_match_encoding buf_one (-1) 2 0 [some 1] (by decide) (by decide) (by decide)⟩

/-! ## The probe window -/

/-- Without a sync match in its range the probe loop ends with both counts at `-1`. -/
theorem probe_loop_none (pbuf : RawVec) :
    ∀ (n i : Nat), (0 < n → i + n + 2 ≤ pbuf.length) →
      (∀ q, i ≤ q → q < i + n → ¬ SyncAt pbuf q) →
      probe_loop pbuf n i = .ok (-1, -1) := by
  intro n
  induction n with
  | zero => intro i _ _; rfl
  | succ n ih =>
    intro i h hno
    have h0 := h (Nat.succ_pos n)
    unfold probe_loop
    rw [sync_at_ok (show i + 2 < pbuf.length by omega)]
    have hi : ¬ SyncAt pbuf i := hno i (Nat.le_refl _) (by omega)
    simp only [hi, decide_False]
    exact ih (i + 1) (fun _ => by omega) (fun q h1 h2 => hno q (by omega) (by omega))

theorem header_at_error_cases {pbuf : RawVec} {i : Nat} {e : Abort}
    (h : header_at pbuf i = .error e) :
    (e = .out_of_bounds ∧ pbuf.length ≤ i + 31)
      ∨ (e = .beams (pbuf.byte (i + 26)).val ∧ i + 31 < pbuf.length
          ∧ ¬ ((pbuf.byte (i + 26)).val = 2 ∨ (pbuf.byte (i + 26)).val = 3)) := by
  by_cases hlt : i + 31 < pbuf.length
  · rw [header_at_of_lt hlt] at h
    split at h
    · rename_i hb
      injection h with h
      exact Or.inr ⟨h.symm, hlt, by omega⟩
    · cases h
  · rw [header_at_of_ge (Nat.not_lt.mp hlt)] at h
    injection h with h
    exact Or.inl ⟨h.symm, Nat.not_lt.mp hlt⟩

/-- With a first sync match at `p ≤ 996` the probe is the reading of the header at `p`. -/
theorem probe_eq_header_at {pbuf : RawVec} {p : Nat} (hlen : 1000 ≤ pbuf.length)
    (hp : p ≤ 996) (hno : ∀ q, q < p → ¬ SyncAt pbuf q) (hs : SyncAt pbuf p) :
    probe pbuf = header_at pbuf p := by
  have h := probe_loop_first pbuf (first_look - 3) 0 p (by simp only [first_look]; omega)
    (fun q _ h2 => hno q (by omega)) (by rw [Nat.zero_add]; exact hs) (by omega)
  rw [Nat.zero_add] at h
  unfold probe
  rw [h]
  cases hh : header_at pbuf p with
  | error e => rfl
  | ok g =>
    obtain ⟨nbeam, ncell⟩ := g
    obtain ⟨_, _, h3, h4, _⟩ := header_at_facts hh
    simp only
    rw [if_neg (by omega)]

theorem probe_no_geometry_iff {pbuf : RawVec} (hlen : 1000 ≤ pbuf.length) :
    probe pbuf = .error .no_geometry ↔ ∀ i, i < 997 → ¬ SyncAt pbuf i := by
  constructor
  · intro h i hi hs
    have hex : ∃ q, q < 997 ∧ SyncAt pbuf q := ⟨i, hi, hs⟩
    have hspec := Nat.find_spec hex
    have hmin : ∀ q, q < Nat.find hex → ¬ SyncAt pbuf q := fun q hq hsq =>
      Nat.find_min hex hq ⟨by omega, hsq⟩
    rw [probe_eq_header_at hlen (by omega) hmin hspec.2] at h
    rcases header_at_error_cases h with ⟨h1, _⟩ | ⟨h1, _⟩ <;> cases h1
  · intro h
    unfold probe
    rw [probe_loop_none pbuf (first_look - 3) 0 (fun _ => by simp only [first_look]; omega)
      (fun q _ hq => h q (by simp only [first_look] at hq; omega))]
    rfl

/-- C11 as stated fails at `buf_edge`: the sync bytes stand at offset 997, one of the offsets
0 through 997, and the call stops with the error "cannot determine #beams or #cells". -/
theorem C11_offset_997_not_probed :
    1000 ≤ buf_edge.length
      ∧ ldc_sontek_adp buf_edge 0 0 0 (-1) = .error .no_geometry
      ∧ ¬ (∀ i, i ≤ 997 → ¬ SyncAt buf_edge i)
      ∧ SyncAt buf_edge 997 := by
  decide

/-- C11, amended. Probe window: on a buffer of at least 1000 bytes with the flags off, the
call stops with the error "cannot determine #beams or #cells" if and only if none of the
offsets 0 through 996 (996 included, the last offset the probe loop visits) starts the byte
sequence `0xA5 0x10 0x50`. -/
theorem C11_no_geometry_iff (buf : RawVec) (max : Int) (hlen : 1000 ≤ buf.length) :
    ldc_sontek_adp buf 0 0 0 max = .error .no_geometry
      ↔ ∀ i, i ≤ 996 → ¬ ((buf.byte i).val = 0xA5 ∧ (buf.byte (i + 1)).val = 0x10
          ∧ (buf.byte (i + 2)).val = 0x50) := by
  have hiff : (∀ i, i ≤ 996 → ¬ ((buf.byte i).val = 0xA5 ∧ (buf.byte (i + 1)).val = 0x10
      ∧ (buf.byte (i + 2)).val = 0x50)) ↔ ∀ i, i < 997 → ¬ SyncAt buf i :=
    ⟨fun h i hi => h i (by omega), fun h i hi => h i (by omega)⟩
  rw [hiff, ← probe_no_geometry_iff hlen]
  cases hp : probe buf with
  | error e =>
    rw [ldc_of_probe_error max hlen hp]
    constructor <;> intro h <;> (injection h with h; rw [h])
  | ok g =>
    rw [ldc_eq buf max g.1 g.2 hlen hp]
    constructor <;> intro h <;> cases h

/-- C11 amended, at `buf_edge`: no offset in 0..996 starts the sync bytes. -/
theorem C11_no_geometry_iff_witness :
    1000 ≤ buf_edge.length
    ∧ (ldc_sontek_adp buf_edge 0 0 0 (-1) = .error .no_geometry
      ↔ ∀ i, i ≤ 996 → ¬ ((buf_edge.byte i).val = 0xA5 ∧ (buf_edge.byte (i + 1)).val = 0x10
          ∧ (buf_edge.byte (i + 2)).val = 0x50)) :=
  ⟨by decide, C11_no_geometry_iff buf_edge (-1) (by decide)⟩

/-! ## Changes of one byte -/

theorem set_byte_of_ne (pbuf : RawVec) {j k : Nat} (v : Byte) (h : j ≠ k) :
    (pbuf.set k v).byte j = pbuf.byte j := by
  simp [RawVec.set, h]

theorem set_byte_self (pbuf : RawVec) (k : Nat) (v : Byte) : (pbuf.set k v).byte k = v := by
  simp [RawVec.set]

theorem byte_sum_set_outside (pbuf : RawVec) (k : Nat) (v : Byte) :
    ∀ (n a : Nat), k < a ∨ a + n ≤ k → byte_sum (pbuf.set k v) a n = byte_sum pbuf a n := by
  intro n
  induction n with
  | zero => intro a _; simp [byte_sum]
  | succ n ih =>
    intro a h
    rw [byte_sum_succ, byte_sum_succ, ih (a + 1) (by omega),
      set_byte_of_ne pbuf v (show a ≠ k by omega)]

theorem byte_sum_set_inside (pbuf : RawVec) (k : Nat) (v : Byte) :
    ∀ (n a : Nat), a ≤ k → k < a + n →
      byte_sum (pbuf.set k v) a n + (pbuf.byte k).val = byte_sum pbuf a n + v.val := by
  intro n
  induction n with
  | zero => intro a h1 h2; omega
  | succ n ih =>
    intro a h1 h2
    rw [byte_sum_succ, byte_sum_succ]
    by_cases hak : a = k
    · subst hak
      rw [set_byte_self, byte_sum_set_outside pbuf a v n (a + 1) (by omega)]
      omega
    · rw [set_byte_of_ne pbuf v hak]
      have := ih (a + 1) (by omega) (by omega)
      omega

/-- A change of a byte outside the window `i .. i+L+1` leaves the test at `i` as it was. -/
theorem passes_set_outside {pbuf : RawVec} {L i k : Nat} (v : Byte) (hL : 1 ≤ L)
    (hk : k < i ∨ i + L + 1 < k) : Passes (pbuf.set k v) L i ↔ Passes pbuf L i := by
  unfold Passes SyncAt stored16
  rw [byte_sum_set_outside pbuf k v L i (by omega),
    set_byte_of_ne pbuf v (show i ≠ k by omega),
    set_byte_of_ne pbuf v (show i + 1 ≠ k by omega),
    set_byte_of_ne pbuf v (show i + 2 ≠ k by omega),
    set_byte_of_ne pbuf v (show i + L ≠ k by omega),
    set_byte_of_ne pbuf v (show i + L + 1 ≠ k by omega)]

/-- A change of one byte of the window `i .. i+L+1` makes a passing offset `i` fail. -/
theorem not_passes_set_inside {pbuf : RawVec} {L i k : Nat} {v : Byte}
    (hpass : Passes pbuf L i) (hk1 : i ≤ k) (hk2 : k ≤ i + L + 1) (hv : v ≠ pbuf.byte k) :
    ¬ Passes (pbuf.set k v) L i := by
  intro hp
  have hne : v.val ≠ (pbuf.byte k).val := fun h => hv (Fin.ext h)
  have hv256 := v.isLt
  have hold := (pbuf.byte k).isLt
  have h1 := hpass.2
  have h2 := hp.2
  unfold stored16 at h1 h2
  have hlo := (pbuf.byte (i + L)).isLt
  have hhi := (pbuf.byte (i + L + 1)).isLt
  by_cases hbody : k < i + L
  · rw [set_byte_of_ne pbuf v (show i + L ≠ k by omega),
      set_byte_of_ne pbuf v (show i + L + 1 ≠ k by omega)] at h2
    have := byte_sum_set_inside pbuf k v L i hk1 hbody
    omega
  · rw [byte_sum_set_outside pbuf k v L i (by omega)] at h2
    by_cases hkl : k = i + L
    · subst hkl
      rw [set_byte_self, set_byte_of_ne pbuf v (show i + L + 1 ≠ i + L by omega)] at h2
      omega
    · have hkl1 : k = i + L + 1 := by omega
      subst hkl1
      rw [set_byte_self, set_byte_of_ne pbuf v (show i + L ≠ i + L + 1 by omega)] at h2
      omega

theorem mem_encode_iff {js : List Nat} {i : Nat} :
    some ((i : Int) + 1) ∈ encode js ↔ i ∈ js := by
  cases js with
  | nil =>
    simp only [encode, List.mem_singleton, Option.some.injEq, List.not_mem_nil, iff_false]
    omega
  | cons j js =>
    rw [encode_of_ne_nil (List.cons_ne_nil j js), List.mem_map]
    constructor
    · rintro ⟨a, ha, he⟩
      simp only [reported, Option.some.injEq] at he
      have : a = i := by omega
      rw [← this]; exact ha
    · intro h; exact ⟨i, h, rfl⟩

/-- C12. Checksum sensitivity: for every buffer, every frame length `L` (the claim asks for
`L ≥ 3`, which is not needed) and every offset `i` that passes the sync-and-checksum test,
replacing the byte at one index `k` of
`i .. i+L+1` (frame body or stored check sum) by a different value gives a buffer in which
offset `i` fails the test for the same `L`; and when the probe of the changed buffer (of at
least 1000 bytes, flags off) derives the frame length `L`, no result of the call holds
`i + 1`. -/
theorem C12_single_byte_change_excludes (buf : RawVec) (L i k : Nat) (v : Byte)
    (hpass : Passes buf L i) (hk1 : i ≤ k) (hk2 : k ≤ i + L + 1)
    (hv : v ≠ buf.byte k) :
    ¬ Passes (buf.set k v) L i
      ∧ ∀ (max nbeam ncell : Int) (res : List (Option Int)),
          1000 ≤ (buf.set k v).length → probe (buf.set k v) = .ok (nbeam, ncell) →
          (chunk_length 0 0 0 ncell nbeam).toNat = L →
          ldc_sontek_adp (buf.set k v) 0 0 0 max = .ok res → some ((i : Int) + 1) ∉ res := by
  have hnot := not_passes_set_inside hpass hk1 hk2 hv
  refine ⟨hnot, ?_⟩
  intro max nbeam ncell res hlen hp hLeq hres hmem
  rw [ldc_eq _ max nbeam ncell hlen hp, hLeq] at hres
  injection hres with hres
  rw [← hres] at hmem
  exact hnot (mem_passing.mp (mem_kept (mem_encode_iff.mp hmem))).2

/-- C12 at `buf_one`: the frame at offset 0 with `L = 80`, its beam-count byte 26 changed
from 2 to 3. -/
theorem C12_single_byte_change_excludes_witness :
    (Passes buf_one 80 0 ∧ 0 ≤ 26 ∧ 26 ≤ 0 + 80 + 1 ∧ (3 : Byte) ≠ buf_one.byte 26)
    ∧ (¬ Passes (buf_one.set 26 3) 80 0
      ∧ ∀ (max nbeam ncell : Int) (res : List (Option Int)),
          1000 ≤ (buf_one.set 26 3).length → probe (buf_one.set 26 3) = .ok (nbeam, ncell) →
          (chunk_length 0 0 0 ncell nbeam).toNat = 80 →
          ldc_sontek_adp (buf_one.set 26 3) 0 0 0 max = .ok res →
          some (((0 : Nat) : Int) + 1) ∉ res) :=
  ⟨⟨by decide, by decide, by decide, by decide⟩,
    C12_single_byte_change_excludes buf_one 80 0 26 3 (by decide) (by decide) (by decide)
      (by decide)⟩

/-- C13 as stated fails at `buf_two`: its two frames, at offsets 0 and 82, do not overlap and
are both reported by the uncapped call; after the change of byte 26, inside the first frame,
from 2 to 0 the uncapped call does not succeed: it stops with the error on the number of
beams, and the frame at offset 82 is not reported. -/
theorem C13_change_in_first_frame_fails :
    1000 ≤ buf_two.length ∧ FrameAt buf_two 0 ∧ FrameAt buf_two 82 ∧ 0 + 80 + 1 < 82
      ∧ ldc_sontek_adp buf_two 0 0 0 (-1) = .ok [some 1, some 83]
      ∧ (0 ≤ 26 ∧ 26 ≤ 0 + 80 + 1) ∧ (0 : Byte) ≠ buf_two.byte 26
      ∧ ldc_sontek_adp (buf_two.set 26 0) 0 0 0 (-1) = .error (.beams 0) := by
  decide

/-- C13, amended. Other frames unaffected: on a buffer of at least 1000 bytes with the flags
off and no cap, `L` being the frame length derived by the probe, let `i + 1` be reported and
let one byte be changed at an index `k` inside another frame window `j .. j+L+1` that does not
overlap the window `i .. i+L+1`. When the probe derives the same beam and cell counts from the
changed buffer, the uncapped call on the changed buffer succeeds and still reports
`i + 1`. -/
theorem C13_other_frames_kept (buf : RawVec) (max nbeam ncell : Int)
    (res : List (Option Int)) (i j k : Nat) (v : Byte)
    (hlen : 1000 ≤ buf.length) (hmax : max < 0) (hp : probe buf = .ok (nbeam, ncell))
    (hres : ldc_sontek_adp buf 0 0 0 max = .ok res) (hi : some ((i : Int) + 1) ∈ res)
    (hdisj : i + (chunk_length 0 0 0 ncell nbeam).toNat + 1 < j
      ∨ j + (chunk_length 0 0 0 ncell nbeam).toNat + 1 < i)
    (hk1 : j ≤ k) (hk2 : k ≤ j + (chunk_length 0 0 0 ncell nbeam).toNat + 1)
    (hp1 : probe (buf.set k v) = .ok (nbeam, ncell)) :
    ∃ res1, ldc_sontek_adp (buf.set k v) 0 0 0 max = .ok res1
      ∧ some ((i : Int) + 1) ∈ res1 := by
  obtain ⟨hb2, _, hc0⟩ := probe_facts hp
  have hch := chunk_length_ge hb2 hc0
  have hlen1 : 1000 ≤ (buf.set k v).length := hlen
  refine ⟨_, ldc_eq (buf.set k v) max nbeam ncell hlen1 hp1, ?_⟩
  rw [ldc_eq buf max nbeam ncell hlen hp] at hres
  injection hres with hres
  rw [← hres] at hi
  rw [kept_of_nonpos (Int.le_of_lt hmax)] at hi ⊢
  obtain ⟨hrange, hpass⟩ := mem_passing.mp (mem_encode_iff.mp hi)
  apply mem_encode_iff.mpr
  apply mem_passing.mpr
  refine ⟨hrange, ?_⟩
  exact (passes_set_outside v (by omega) (by omega)).mpr hpass

/-- C13 amended, at `buf_two` without a cap: byte 40, in the body of the frame at offset 0,
is changed from 0 to 1; the frame at offset 82 is still reported. -/
theorem C13_other_frames_kept_witness :
    (1000 ≤ buf_two.length ∧ (-1 : Int) < 0 ∧ probe buf_two = .ok (2, 0)
      ∧ ldc_sontek_adp buf_two 0 0 0 (-1) = .ok [some 1, some 83]
      ∧ some (((82 : Nat) : Int) + 1) ∈ [some (1 : Int), some 83]
      ∧ (82 + (chunk_length 0 0 0 0 2).toNat + 1 < 0
          ∨ 0 + (chunk_length 0 0 0 0 2).toNat + 1 < 82)
      ∧ 0 ≤ 40 ∧ 40 ≤ 0 + (chunk_length 0 0 0 0 2).toNat + 1
      ∧ probe (buf_two.set 40 1) = .ok (2, 0))
    ∧ ∃ res1, ldc_sontek_adp (buf_two.set 40 1) 0 0 0 (-1) = .ok res1
      ∧ some (((82 : Nat) : Int) + 1) ∈ res1 :=
  ⟨⟨by decide, by decide, by decide, by decide, by decide, by decide, by decide, by decide,
      by decide⟩,
    C13_other_frames_kept buf_two (-1) 2 0 [some 1, some 83] 82 0 40 1 (by decide) (by decide)
      (by decide) (by decide) (by decide) (by decide) (by decide) (by decide) (by decide)⟩

/-! ## The final state of the collection pass and the single pass -/

theorem overrun_nil (lres k : Nat) : overrun lres k [] = [] := by
  simp [overrun]

theorem overrun_cons_of_lt {lres k : Nat} (h : k < lres) (j : Nat) (js : List Nat) :
    overrun lres k (j :: js) = overrun lres (k + 1) js := by
  unfold overrun
  rw [show lres - k = (lres - (k + 1)) + 1 by omega, List.getElem?_cons_succ]

theorem overrun_cons_of_eq (lres : Nat) (j : Nat) (js : List Nat) :
    overrun lres lres (j :: js) = [(lres, (j : Int) + 1)] := by
  simp [overrun]

/-- The final state of the collection pass: the slots, the index `ires` and the stores made
outside the vector. -/
theorem collect_loop_state (pbuf : RawVec) (L lres : Nat) :
    ∀ (n i : Nat) (s : Collect), (0 < n → i + n + L + 3 ≤ pbuf.length) →
      s.pres.length = lres → s.ires ≤ lres →
      ∃ s1, collect_loop pbuf L lres n i s = .ok s1
        ∧ s1.pres = fill s.pres s.ires (passing pbuf L i n)
        ∧ s1.ires = s.ires + min (passing pbuf L i n).length (lres - s.ires + 1)
        ∧ s1.stray = s.stray ++ overrun lres s.ires (passing pbuf L i n) := by
  intro n
  induction n with
  | zero =>
    intro i s _ _ _
    exact ⟨s, by simp [collect_loop], by simp [passing, fill], by simp [passing],
      by simp [passing, overrun_nil]⟩
  | succ n ih =>
    intro i s h hlen hk
    have h0 := h (Nat.succ_pos n)
    unfold collect_loop
    by_cases hp : Passes pbuf L i
    · rw [candidate_of_passes (by omega) hp, passing_succ_of_passes n hp]
      simp only [if_true, fill, List.length_cons]
      by_cases hlt : s.ires < lres
      · have hst : s.store ((i : Int) + 1)
            = ⟨s.pres.set s.ires (reported i), s.ires + 1, s.stray⟩ := by
          simp [Collect.store, hlen, hlt, reported]
        rw [hst, if_neg (by simp only; omega), if_pos (by omega), overrun_cons_of_lt hlt]
        obtain ⟨s1, h1, h2, h3, h4⟩ := ih (i + 1)
          ⟨s.pres.set s.ires (reported i), s.ires + 1, s.stray⟩ (by omega) (by simp [hlen])
          (by simp only; omega)
        refine ⟨s1, h1, h2, ?_, h4⟩
        rw [h3]
        simp only
        omega
      · have hst : s.store ((i : Int) + 1)
            = ⟨s.pres, s.ires + 1, s.stray ++ [(s.ires, (i : Int) + 1)]⟩ := by
          simp [Collect.store, hlen, hlt]
        have hke : s.ires = lres := by omega
        rw [hst, if_pos (by simp only; omega), if_neg (by omega)]
        refine ⟨_, rfl, rfl, ?_, ?_⟩
        · simp only
          omega
        · simp only
          rw [hke, overrun_cons_of_eq]
    · rw [passing_succ_of_not_passes n hp]
      rcases candidate_of_not_passes (show i + L + 3 ≤ pbuf.length by omega) hp with hc | hc
      · rw [hc]; exact ih (i + 1) s (by omega) hlen hk
      · rw [hc]
        simp only [Bool.false_eq_true, if_false]
        rw [if_neg (by omega)]
        exact ih (i + 1) s (by omega) hlen hk

theorem single_pass_uncapped (pbuf : RawVec) (L : Nat) (max : Int) (hmax : max < 0) :
    ∀ (n i : Nat) (out : List Int),
      single_pass pbuf L max n i out
        = out ++ (passing pbuf L i n).map (fun (j : Nat) => (j : Int) + 1) := by
  intro n
  induction n with
  | zero => intro i out; simp [single_pass, passing]
  | succ n ih =>
    intro i out
    unfold single_pass
    rw [if_neg (by omega)]
    by_cases hp : Passes pbuf L i
    · rw [if_pos hp, ih, passing_succ_of_passes n hp]
      simp
    · rw [if_neg hp, ih, passing_succ_of_not_passes n hp]

theorem single_pass_capped (pbuf : RawVec) (L : Nat) (max : Int) (hmax : 0 ≤ max) :
    ∀ (n i : Nat) (out : List Int), out.length ≤ max.toNat →
      single_pass pbuf L max n i out
        = out ++ ((passing pbuf L i n).take (max.toNat - out.length)).map
            (fun (j : Nat) => (j : Int) + 1) := by
  intro n
  induction n with
  | zero => intro i out _; simp [single_pass, passing]
  | succ n ih =>
    intro i out hout
    unfold single_pass
    by_cases hfull : max ≤ (out.length : Int)
    · rw [if_pos ⟨hmax, hfull⟩, show max.toNat - out.length = 0 by omega]
      simp
    · rw [if_neg (fun hh => hfull hh.2)]
      by_cases hp : Passes pbuf L i
      · rw [if_pos hp, ih _ _ (by simp only [List.length_append, List.length_singleton]; omega),
          passing_succ_of_passes n hp]
        simp only [List.length_append, List.length_singleton]
        rw [show max.toNat - out.length = (max.toNat - (out.length + 1)) + 1 by omega]
        simp
      · rw [if_neg hp, ih _ _ hout, passing_succ_of_not_passes n hp]

/-- The count of the counting pass is the number of kept offsets. -/
theorem count_loop_kept (pbuf : RawVec) (L : Nat) (max : Int) (n : Nat)
    (h : 0 < n → 0 + n + L + 3 ≤ pbuf.length) :
    count_loop pbuf L (if max < 0 then 0 else max) n 0 0
        = .ok (kept max (passing pbuf L 0 n)).length
      ∧ kept max (passing pbuf L 0 n)
        = (passing pbuf L 0 n).take (kept max (passing pbuf L 0 n)).length := by
  by_cases hm : max ≤ 0
  · have hmax : (if max < 0 then 0 else max) = 0 := by split <;> omega
    rw [hmax, count_loop_uncapped pbuf L n 0 0 h, kept_of_nonpos hm, Nat.zero_add]
    exact ⟨rfl, (List.take_of_length_le (Nat.le_refl _)).symm⟩
  · have hmax : (if max < 0 then 0 else max) = max := by split <;> omega
    have hk : kept max (passing pbuf L 0 n) = (passing pbuf L 0 n).take max.toNat := by
      unfold kept; rw [if_neg hm]
    have hl : ((passing pbuf L 0 n).take max.toNat).length
        = min (passing pbuf L 0 n).length max.toNat := by
      rw [List.length_take, Nat.min_comm]
    rw [hmax, count_loop_capped pbuf L max (by omega) n 0 0 h (by simp; omega), hk, hl,
      Nat.zero_add]
    exact ⟨rfl, (take_min_length _ _).symm⟩

theorem scan_bound_fits {lbuf : Nat} {chunk : Int} (hc : 0 ≤ chunk) :
    0 < scan_bound lbuf chunk → 0 + scan_bound lbuf chunk + chunk.toNat + 3 ≤ lbuf := by
  unfold scan_bound
  omega

theorem kept_length (max : Int) (js : List Nat) :
    (kept max js).length = if max ≤ 0 then js.length else min max.toNat js.length := by
  unfold kept
  split
  · rfl
  · rw [List.length_take]

theorem overrun_zero_of_lt {lres : Nat} {js : List Nat} (h : lres < js.length) :
    overrun lres 0 js = [(lres, ((js.get ⟨lres, h⟩ : Nat) : Int) + 1)] := by
  unfold overrun
  rw [Nat.sub_zero, List.getElem?_eq_getElem h]
  rfl

theorem overrun_zero_of_ge {lres : Nat} {js : List Nat} (h : js.length ≤ lres) :
    overrun lres 0 js = [] := by
  unfold overrun
  rw [Nat.sub_zero, List.getElem?_eq_none h]

theorem map_some_map_succ (js : List Nat) :
    (js.map (fun (j : Nat) => (j : Int) + 1)).map some = js.map reported := by
  rw [List.map_map]
  rfl

/-- C14. The two passes agree: on a buffer of at least 1000 bytes with the flags off, `max`
negative or at least 1, a geometry found by the probe and at least one passing offset in the
scan range, let `lres` be the count of the counting pass. Then `lres > 0`, the collection pass
ends normally, every slot `j < lres` of the vector holds `1 +` the offset number `j` of the
passing offsets (none is left unwritten), exactly `lres` of its stores went into the vector
(a store at slot `ires` is followed by `ires++`, so each slot is stored once), and the
returned vector is the list of the single pass that appends `i + 1` for each passing offset
`i` and stops once `max` offsets are collected. -/
theorem C14_two_passes_agree (buf : RawVec) (max nbeam ncell : Int)
    (hlen : 1000 ≤ buf.length) (hmax : max < 0 ∨ 1 ≤ max)
    (hp : probe buf = .ok (nbeam, ncell))
    (hne : passing buf (chunk_length 0 0 0 ncell nbeam).toNat 0
      (scan_bound buf.length (chunk_length 0 0 0 ncell nbeam)) ≠ []) :
    ∃ (lres : Nat) (s1 : Collect),
      count_loop buf (chunk_length 0 0 0 ncell nbeam).toNat (if max < 0 then 0 else max)
          (scan_bound buf.length (chunk_length 0 0 0 ncell nbeam)) 0 0 = .ok lres
      ∧ 0 < lres
      ∧ collect_loop buf (chunk_length 0 0 0 ncell nbeam).toNat lres
          (scan_bound buf.length (chunk_length 0 0 0 ncell nbeam)) 0
          ⟨List.replicate lres none, 0, []⟩ = .ok s1
      ∧ s1.pres.length = lres
      ∧ (∀ j, j < lres → ∃ i : Nat,
          (passing buf (chunk_length 0 0 0 ncell nbeam).toNat 0
            (scan_bound buf.length (chunk_length 0 0 0 ncell nbeam)))[j]? = some i
          ∧ s1.pres[j]? = some (some ((i : Int) + 1)))
      ∧ s1.ires = lres + s1.stray.length
      ∧ ldc_sontek_adp buf 0 0 0 max = .ok s1.pres
      ∧ s1.pres = (single_pass buf (chunk_length 0 0 0 ncell nbeam).toNat max
          (scan_bound buf.length (chunk_length 0 0 0 ncell nbeam)) 0 []).map some := by
  obtain ⟨hb2, _, hc0⟩ := probe_facts hp
  have hch := chunk_length_ge hb2 hc0
  have hbound := @scan_bound_fits buf.length (chunk_length 0 0 0 ncell nbeam) (by omega)
  have hldc := ldc_eq buf max nbeam ncell hlen hp
  obtain ⟨hcount, htake⟩ := count_loop_kept buf (chunk_length 0 0 0 ncell nbeam).toNat max
    (scan_bound buf.length (chunk_length 0 0 0 ncell nbeam)) hbound
  have hsingle : (single_pass buf (chunk_length 0 0 0 ncell nbeam).toNat max
      (scan_bound buf.length (chunk_length 0 0 0 ncell nbeam)) 0 []).map some
      = (kept max (passing buf (chunk_length 0 0 0 ncell nbeam).toNat 0
          (scan_bound buf.length (chunk_length 0 0 0 ncell nbeam)))).map reported := by
    rcases hmax with hneg | hpos
    · rw [single_pass_uncapped buf _ max hneg, List.nil_append, map_some_map_succ,
        kept_of_nonpos (Int.le_of_lt hneg)]
    · rw [single_pass_capped buf _ max (by omega) _ _ _ (by simp), List.nil_append,
        map_some_map_succ]
      unfold kept
      rw [if_neg (by omega)]
      simp
  obtain ⟨s1, hs1, hpres, hires, hstray⟩ := collect_loop_state buf
    (chunk_length 0 0 0 ncell nbeam).toNat
    (kept max (passing buf (chunk_length 0 0 0 ncell nbeam).toNat 0
      (scan_bound buf.length (chunk_length 0 0 0 ncell nbeam)))).length
    (scan_bound buf.length (chunk_length 0 0 0 ncell nbeam)) 0
    ⟨List.replicate (kept max (passing buf (chunk_length 0 0 0 ncell nbeam).toNat 0
      (scan_bound buf.length (chunk_length 0 0 0 ncell nbeam)))).length none, 0, []⟩
    hbound (by simp) (by simp)
  have hkl := kept_length max (passing buf (chunk_length 0 0 0 ncell nbeam).toNat 0
    (scan_bound buf.length (chunk_length 0 0 0 ncell nbeam)))
  have hkne : kept max (passing buf (chunk_length 0 0 0 ncell nbeam).toNat 0
      (scan_bound buf.length (chunk_length 0 0 0 ncell nbeam))) ≠ [] :=
    fun h0 => hne (kept_eq_nil_iff.mp h0)
  rw [encode_of_ne_nil hkne] at hldc
  generalize passing buf (chunk_length 0 0 0 ncell nbeam).toNat 0
    (scan_bound buf.length (chunk_length 0 0 0 ncell nbeam)) = P at *
  generalize hK : kept max P = K at *
  have hle : K.length ≤ P.length := by
    rw [hkl]; split <;> omega
  simp only at hpres hires hstray
  rw [fill_replicate P K.length hle, ← htake] at hpres
  refine ⟨K.length, s1, hcount, List.length_pos.mpr hkne, hs1, ?_, ?_, ?_, ?_, ?_⟩
  · rw [hpres, List.length_map]
  · intro j hj
    have hjP : j < P.length := by omega
    refine ⟨P.get ⟨j, hjP⟩, List.getElem?_eq_getElem hjP, ?_⟩
    rw [hpres, htake, List.getElem?_map, List.getElem?_take_of_lt hj,
      List.getElem?_eq_getElem hjP]
    rfl
  · rw [hires, hstray]
    by_cases hlt : K.length < P.length
    · rw [overrun_zero_of_lt hlt]
      simp only [List.nil_append, List.length_singleton]
      omega
    · rw [overrun_zero_of_ge (by omega)]
      simp only [List.nil_append, List.length_nil]
      omega
  · rw [hldc, hpres]
  · rw [hpres, hsingle]

/-- C14 at `buf_two` with `max = 1`: two offsets pass, the count is 1. -/
theorem C14_two_passes_agree_witness :
    (1000 ≤ buf_two.length ∧ ((1 : Int) < 0 ∨ (1 : Int) ≤ 1) ∧ probe buf_two = .ok (2, 0)
      ∧ passing buf_two (chunk_length 0 0 0 0 2).toNat 0
          (scan_bound buf_two.length (chunk_length 0 0 0 0 2)) ≠ [])
    ∧ ∃ (lres : Nat) (s1 : Collect),
      count_loop buf_two (chunk_length 0 0 0 0 2).toNat (if (1 : Int) < 0 then 0 else 1)
          (scan_bound buf_two.length (chunk_length 0 0 0 0 2)) 0 0 = .ok lres
      ∧ 0 < lres
      ∧ collect_loop buf_two (chunk_length 0 0 0 0 2).toNat lres
          (scan_bound buf_two.length (chunk_length 0 0 0 0 2)) 0
          ⟨List.replicate lres none, 0, []⟩ = .ok s1
      ∧ s1.pres.length = lres
      ∧ (∀ j, j < lres → ∃ i : Nat,
          (passing buf_two (chunk_length 0 0 0 0 2).toNat 0
            (scan_bound buf_two.length (chunk_length 0 0 0 0 2)))[j]? = some i
          ∧ s1.pres[j]? = some (some ((i : Int) + 1)))
      ∧ s1.ires = lres + s1.stray.length
      ∧ ldc_sontek_adp buf_two 0 0 0 1 = .ok s1.pres
      ∧ s1.pres = (single_pass buf_two (chunk_length 0 0 0 0 2).toNat 1
          (scan_bound buf_two.length (chunk_length 0 0 0 0 2)) 0 []).map some :=
  ⟨⟨by decide, by decide, by decide, by decide⟩,
    C14_two_passes_agree buf_two 1 2 0 (by decide) (by decide) (by decide) (by decide)⟩

/-- C19. The guard `ires > lres` lets the collection pass store one element past the `lres`
slots: on a buffer of at least 1000 bytes with the flags off and a geometry found by the
probe, `lres` being the count of the counting pass, the collection pass (run when `lres > 0`)
stores at index `lres` exactly when `max = m ≥ 1` and more than `m` offsets of the scan range
pass, and then `lres = m`; it never stores at an index above `lres` (every store outside the
vector is at index `lres`, there is at most one, and `ires` ends at most at `lres + 1`); and
when `max` is negative or 0 no store is made outside the vector. -/
theorem C19_store_past_the_vector (buf : RawVec) (max nbeam ncell : Int)
    (hlen : 1000 ≤ buf.length) (hp : probe buf = .ok (nbeam, ncell)) :
    ∃ lres : Nat,
      count_loop buf (chunk_length 0 0 0 ncell nbeam).toNat (if max < 0 then 0 else max)
          (scan_bound buf.length (chunk_length 0 0 0 ncell nbeam)) 0 0 = .ok lres
      ∧ ((1 ≤ max ∧ max.toNat < (passing buf (chunk_length 0 0 0 ncell nbeam).toNat 0
            (scan_bound buf.length (chunk_length 0 0 0 ncell nbeam))).length) →
          lres = max.toNat ∧ 0 < lres)
      ∧ ∃ s1 : Collect,
          collect_loop buf (chunk_length 0 0 0 ncell nbeam).toNat lres
            (scan_bound buf.length (chunk_length 0 0 0 ncell nbeam)) 0
            ⟨List.replicate lres none, 0, []⟩ = .ok s1
          ∧ (s1.stray ≠ [] ↔
              (1 ≤ max ∧ max.toNat < (passing buf (chunk_length 0 0 0 ncell nbeam).toNat 0
                (scan_bound buf.length (chunk_length 0 0 0 ncell nbeam))).length))
          ∧ (∀ w ∈ s1.stray, w.1 = lres)
          ∧ s1.stray.length ≤ 1
          ∧ s1.ires ≤ lres + 1
          ∧ (max ≤ 0 → s1.stray = []) := by
  have _ := hlen
  obtain ⟨hb2, _, hc0⟩ := probe_facts hp
  have hch := chunk_length_ge hb2 hc0
  have hbound := @scan_bound_fits buf.length (chunk_length 0 0 0 ncell nbeam) (by omega)
  obtain ⟨hcount, _⟩ := count_loop_kept buf (chunk_length 0 0 0 ncell nbeam).toNat max
    (scan_bound buf.length (chunk_length 0 0 0 ncell nbeam)) hbound
  obtain ⟨s1, hs1, _, hires, hstray⟩ := collect_loop_state buf
    (chunk_length 0 0 0 ncell nbeam).toNat
    (kept max (passing buf (chunk_length 0 0 0 ncell nbeam).toNat 0
      (scan_bound buf.length (chunk_length 0 0 0 ncell nbeam)))).length
    (scan_bound buf.length (chunk_length 0 0 0 ncell nbeam)) 0
    ⟨List.replicate (kept max (passing buf (chunk_length 0 0 0 ncell nbeam).toNat 0
      (scan_bound buf.length (chunk_length 0 0 0 ncell nbeam)))).length none, 0, []⟩
    hbound (by simp) (by simp)
  have hkl := kept_length max (passing buf (chunk_length 0 0 0 ncell nbeam).toNat 0
    (scan_bound buf.length (chunk_length 0 0 0 ncell nbeam)))
  generalize passing buf (chunk_length 0 0 0 ncell nbeam).toNat 0
    (scan_bound buf.length (chunk_length 0 0 0 ncell nbeam)) = P at *
  generalize kept max P = K at *
  simp only [List.nil_append] at hires hstray
  have hK : (1 ≤ max ∧ max.toNat < P.length) ↔ K.length < P.length := by
    rw [hkl]; split <;> omega
  have hle : K.length ≤ P.length := by
    rw [hkl]; split <;> omega
  refine ⟨K.length, hcount, ?_, s1, hs1, ?_, ?_, ?_, ?_, ?_⟩
  · intro h
    rw [hkl]
    split <;> omega
  · rw [hK, hstray]
    constructor
    · intro h
      by_contra hge
      exact h (overrun_zero_of_ge (by omega))
    · intro h
      rw [overrun_zero_of_lt h]
      exact List.cons_ne_nil _ _
  · intro w hw
    rw [hstray] at hw
    by_cases hlt : K.length < P.length
    · rw [overrun_zero_of_lt hlt, List.mem_singleton] at hw
      rw [hw]
    · rw [overrun_zero_of_ge (by omega)] at hw
      cases hw
  · rw [hstray]
    by_cases hlt : K.length < P.length
    · rw [overrun_zero_of_lt hlt]; simp
    · rw [overrun_zero_of_ge (by omega)]; simp
  · rw [hires]; omega
  · intro hm
    rw [hstray]
    exact overrun_zero_of_ge (by rw [hkl, if_pos hm])

/-- C19 at `buf_two` with `max = 1`: two offsets pass, `lres = 1`, and the second is stored at
index 1. -/
theorem C19_store_past_the_vector_witness :
    (1000 ≤ buf_two.length ∧ probe buf_two = .ok (2, 0))
    ∧ ∃ lres : Nat,
      count_loop buf_two (chunk_length 0 0 0 0 2).toNat (if (1 : Int) < 0 then 0 else 1)
          (scan_bound buf_two.length (chunk_length 0 0 0 0 2)) 0 0 = .ok lres
      ∧ (((1 : Int) ≤ 1 ∧ (1 : Int).toNat < (passing buf_two (chunk_length 0 0 0 0 2).toNat 0
            (scan_bound buf_two.length (chunk_length 0 0 0 0 2))).length) →
          lres = (1 : Int).toNat ∧ 0 < lres)
      ∧ ∃ s1 : Collect,
          collect_loop buf_two (chunk_length 0 0 0 0 2).toNat lres
            (scan_bound buf_two.length (chunk_length 0 0 0 0 2)) 0
            ⟨List.replicate lres none, 0, []⟩ = .ok s1
          ∧ (s1.stray ≠ [] ↔
              ((1 : Int) ≤ 1
                ∧ (1 : Int).toNat < (passing buf_two (chunk_length 0 0 0 0 2).toNat 0
                  (scan_bound buf_two.length (chunk_length 0 0 0 0 2))).length))
          ∧ (∀ w ∈ s1.stray, w.1 = lres)
          ∧ s1.stray.length ≤ 1
          ∧ s1.ires ≤ lres + 1
          ∧ ((1 : Int) ≤ 0 → s1.stray = []) :=
  ⟨⟨by decide, by decide⟩,
    C19_store_past_the_vector buf_two 1 2 0 (by decide) (by decide)⟩

/-! ## The reads of the scanner -/

/-- The test at offset `i` reads no index above `i + L + 1`. -/
theorem candidate_ok_tight {pbuf : RawVec} {L i : Nat} (hL : 1 ≤ L)
    (h : i + L + 2 ≤ pbuf.length) :
    candidate pbuf L i
      = .ok (if SyncAt pbuf i then some (decide (Passes pbuf L i)) else none) := by
  unfold candidate
  rw [sync_at_ok (show i + 2 < pbuf.length by omega)]
  by_cases hs : SyncAt pbuf i
  · have hc := check_sum_loop_ok pbuf i L 0 check_sum_start (by omega) (by decide)
    simp only [Nat.add_zero] at hc
    rw [hc, desired_check_sum_ok (show i + L + 1 < pbuf.length by omega)]
    simp only [hs, decide_True, if_true, Passes, true_and, check_sum_start_eq]
  · simp [hs]

theorem candidate_upto {pbuf : RawVec} {L i m : Nat} (hL : 1 ≤ L)
    (hm : i + L + 2 ≤ m) (h : i + L + 2 ≤ pbuf.length) :
    candidate (pbuf.upto m) L i = candidate pbuf L i := by
  rw [candidate_ok_tight hL h, candidate_ok_tight hL (show i + L + 2 ≤ (pbuf.upto m).length from hm)]
  rfl

theorem count_loop_congr (b1 b2 : RawVec) (L : Nat) (max : Int) :
    ∀ (n i k : Nat), (∀ j, i ≤ j → j < i + n → candidate b1 L j = candidate b2 L j) →
      count_loop b1 L max n i k = count_loop b2 L max n i k := by
  intro n
  induction n with
  | zero => intro i k _; rfl
  | succ n ih =>
    intro i k h
    unfold count_loop
    rw [h i (Nat.le_refl _) (by omega)]
    have ih1 := fun k => ih (i + 1) k (fun j h1 h2 => h j (by omega) (by omega))
    simp only [ih1]

theorem collect_loop_congr (b1 b2 : RawVec) (L lres : Nat) :
    ∀ (n i : Nat) (s : Collect),
      (∀ j, i ≤ j → j < i + n → candidate b1 L j = candidate b2 L j) →
      collect_loop b1 L lres n i s = collect_loop b2 L lres n i s := by
  intro n
  induction n with
  | zero => intro i s _; rfl
  | succ n ih =>
    intro i s h
    unfold collect_loop
    rw [h i (Nat.le_refl _) (by omega)]
    have ih1 := fun s => ih (i + 1) s (fun j h1 h2 => h j (by omega) (by omega))
    simp only [ih1]

theorem count_loop_no_abort (pbuf : RawVec) (L : Nat) (max : Int) :
    ∀ (n i k : Nat), (∀ j, i ≤ j → j < i + n → ∃ r, candidate pbuf L j = .ok r) →
      ∃ c, count_loop pbuf L max n i k = .ok c := by
  intro n
  induction n with
  | zero => intro i k _; exact ⟨k, rfl⟩
  | succ n ih =>
    intro i k h
    obtain ⟨r, hr⟩ := h i (Nat.le_refl _) (by omega)
    have ih1 := fun k => ih (i + 1) k (fun j h1 h2 => h j (by omega) (by omega))
    unfold count_loop
    rw [hr]
    rcases r with _ | _ | _
    · exact ih1 k
    · exact ih1 k
    · simp only
      split
      · exact ⟨_, rfl⟩
      · exact ih1 (k + 1)

theorem collect_loop_no_abort (pbuf : RawVec) (L lres : Nat) :
    ∀ (n i : Nat) (s : Collect),
      (∀ j, i ≤ j → j < i + n → ∃ r, candidate pbuf L j = .ok r) →
      ∃ s1, collect_loop pbuf L lres n i s = .ok s1 := by
  intro n
  induction n with
  | zero => intro i s _; exact ⟨s, rfl⟩
  | succ n ih =>
    intro i s h
    obtain ⟨r, hr⟩ := h i (Nat.le_refl _) (by omega)
    have ih1 := fun s => ih (i + 1) s (fun j h1 h2 => h j (by omega) (by omega))
    unfold collect_loop
    rw [hr]
    cases r with
    | none => exact ih1 s
    | some good =>
      simp only
      by_cases hbr : (if good = true then s.store ((i : Int) + 1) else s).ires > lres
      · rw [if_pos hbr]; exact ⟨_, rfl⟩
      · rw [if_neg hbr]; exact ih1 _

/-- C18. The scanner reads inside the buffer: on a buffer of `n ≥ 1000` bytes with a geometry
found by the probe, `L` being the derived frame length, every index that a pass can read at
a tested offset `i` (`i`, `i+1`, `i+2`, `i+c` for `c < L`, `i+L`, `i+L+1`) is at most `n - 3`;
accordingly both passes end normally, with the same outcome, on the buffer cut to its first
`n - 2` bytes, where a read at an index above `n - 3` would stop the run; and when
`n - 3 - L ≤ 0` no offset is tested and both passes end normally on the buffer cut to no
byte at all. -/
theorem C18_scanner_reads_inside (buf : RawVec) (max nbeam ncell : Int)
    (hlen : 1000 ≤ buf.length) (hp : probe buf = .ok (nbeam, ncell)) :
    (∀ i c : Nat, i < scan_bound buf.length (chunk_length 0 0 0 ncell nbeam) →
        c < (chunk_length 0 0 0 ncell nbeam).toNat →
        i + 2 ≤ buf.length - 3 ∧ i + c ≤ buf.length - 3
          ∧ i + (chunk_length 0 0 0 ncell nbeam).toNat + 1 ≤ buf.length - 3
          ∧ buf.length - 3 < buf.length)
      ∧ (∃ k, count_loop (buf.upto (buf.length - 2)) (chunk_length 0 0 0 ncell nbeam).toNat
            (if max < 0 then 0 else max)
            (scan_bound buf.length (chunk_length 0 0 0 ncell nbeam)) 0 0 = .ok k
          ∧ count_loop buf (chunk_length 0 0 0 ncell nbeam).toNat
            (if max < 0 then 0 else max)
            (scan_bound buf.length (chunk_length 0 0 0 ncell nbeam)) 0 0 = .ok k)
      ∧ (∀ (lres : Nat) (s : Collect), ∃ s1,
          collect_loop (buf.upto (buf.length - 2)) (chunk_length 0 0 0 ncell nbeam).toNat lres
            (scan_bound buf.length (chunk_length 0 0 0 ncell nbeam)) 0 s = .ok s1
          ∧ collect_loop buf (chunk_length 0 0 0 ncell nbeam).toNat lres
            (scan_bound buf.length (chunk_length 0 0 0 ncell nbeam)) 0 s = .ok s1)
      ∧ ((buf.length : Int) - 3 - chunk_length 0 0 0 ncell nbeam ≤ 0 →
          scan_bound buf.length (chunk_length 0 0 0 ncell nbeam) = 0
          ∧ count_loop (buf.upto 0) (chunk_length 0 0 0 ncell nbeam).toNat
              (if max < 0 then 0 else max)
              (scan_bound buf.length (chunk_length 0 0 0 ncell nbeam)) 0 0 = .ok 0
          ∧ ∀ (lres : Nat) (s : Collect),
              collect_loop (buf.upto 0) (chunk_length 0 0 0 ncell nbeam).toNat lres
                (scan_bound buf.length (chunk_length 0 0 0 ncell nbeam)) 0 s = .ok s) := by
  obtain ⟨hb2, _, hc0⟩ := probe_facts hp
  have hch := chunk_length_ge hb2 hc0
  have hin : ∀ j, j < scan_bound buf.length (chunk_length 0 0 0 ncell nbeam) →
      j + (chunk_length 0 0 0 ncell nbeam).toNat + 2 ≤ buf.length - 2 := by
    intro j hj
    unfold scan_bound at hj
    omega
  have hcand : ∀ j, 0 ≤ j → j < 0 + scan_bound buf.length (chunk_length 0 0 0 ncell nbeam) →
      candidate (buf.upto (buf.length - 2)) (chunk_length 0 0 0 ncell nbeam).toNat j
        = candidate buf (chunk_length 0 0 0 ncell nbeam).toNat j := by
    intro j _ hj
    have := hin j (by omega)
    exact candidate_upto (by omega) this (by omega)
  have hok : ∀ j, 0 ≤ j → j < 0 + scan_bound buf.length (chunk_length 0 0 0 ncell nbeam) →
      ∃ r, candidate (buf.upto (buf.length - 2)) (chunk_length 0 0 0 ncell nbeam).toNat j
        = .ok r := by
    intro j _ hj
    have := hin j (by omega)
    exact ⟨_, candidate_ok_tight (by omega)
      (show j + (chunk_length 0 0 0 ncell nbeam).toNat + 2
        ≤ (buf.upto (buf.length - 2)).length from this)⟩
  refine ⟨?_, ?_, ?_, ?_⟩
  · intro i c hi hc
    have := hin i hi
    omega
  · obtain ⟨k, hk⟩ := count_loop_no_abort (buf.upto (buf.length - 2))
      (chunk_length 0 0 0 ncell nbeam).toNat (if max < 0 then 0 else max) _ 0 0 hok
    exact ⟨k, hk, by rw [← count_loop_congr _ _ _ _ _ 0 0 hcand, hk]⟩
  · intro lres s
    obtain ⟨s1, hs1⟩ := collect_loop_no_abort (buf.upto (buf.length - 2))
      (chunk_length 0 0 0 ncell nbeam).toNat lres _ 0 s hok
    exact ⟨s1, hs1, by rw [← collect_loop_congr _ _ _ _ _ 0 s hcand, hs1]⟩
  · intro hle
    have h0 : scan_bound buf.length (chunk_length 0 0 0 ncell nbeam) = 0 := by
      unfold scan_bound
      omega
    rw [h0]
    exact ⟨rfl, rfl, fun _ _ => rfl⟩

/-- C18 at `buf_one` without a cap: `n = 1000`, `L = 80`. -/
theorem C18_scanner_reads_inside_witness :
    (1000 ≤ buf_one.length ∧ probe buf_one = .ok (2, 0))
    ∧ ((∀ i c : Nat, i < scan_bound buf_one.length (chunk_length 0 0 0 0 2) →
        c < (chunk_length 0 0 0 0 2).toNat →
        i + 2 ≤ buf_one.length - 3 ∧ i + c ≤ buf_one.length - 3
          ∧ i + (chunk_length 0 0 0 0 2).toNat + 1 ≤ buf_one.length - 3
          ∧ buf_one.length - 3 < buf_one.length)
      ∧ (∃ k, count_loop (buf_one.upto (buf_one.length - 2)) (chunk_length 0 0 0 0 2).toNat
            (if (-1 : Int) < 0 then 0 else -1)
            (scan_bound buf_one.length (chunk_length 0 0 0 0 2)) 0 0 = .ok k
          ∧ count_loop buf_one (chunk_length 0 0 0 0 2).toNat
            (if (-1 : Int) < 0 then 0 else -1)
            (scan_bound buf_one.length (chunk_length 0 0 0 0 2)) 0 0 = .ok k)
      ∧ (∀ (lres : Nat) (s : Collect), ∃ s1,
          collect_loop (buf_one.upto (buf_one.length - 2)) (chunk_length 0 0 0 0 2).toNat lres
            (scan_bound buf_one.length (chunk_length 0 0 0 0 2)) 0 s = .ok s1
          ∧ collect_loop buf_one (chunk_length 0 0 0 0 2).toNat lres
            (scan_bound buf_one.length (chunk_length 0 0 0 0 2)) 0 s = .ok s1)
      ∧ ((buf_one.length : Int) - 3 - chunk_length 0 0 0 0 2 ≤ 0 →
          scan_bound buf_one.length (chunk_length 0 0 0 0 2) = 0
          ∧ count_loop (buf_one.upto 0) (chunk_length 0 0 0 0 2).toNat
              (if (-1 : Int) < 0 then 0 else -1)
              (scan_bound buf_one.length (chunk_length 0 0 0 0 2)) 0 0 = .ok 0
          ∧ ∀ (lres : Nat) (s : Collect),
              collect_loop (buf_one.upto 0) (chunk_length 0 0 0 0 2).toNat lres
                (scan_bound buf_one.length (chunk_length 0 0 0 0 2)) 0 s = .ok s)) :=
  ⟨⟨by decide, by decide⟩, C18_scanner_reads_inside buf_one (-1) 2 0 (by decide) (by decide)⟩

/-! ## The first sync occurrence -/

theorem probe_loop_header (pbuf : RawVec) {nbeam ncell : Int} :
    ∀ (n i : Nat), probe_loop pbuf n i = .ok (nbeam, ncell) →
      (nbeam = -1 ∧ ncell = -1) ∨ ∃ p, header_at pbuf p = .ok (nbeam, ncell) := by
  intro n
  induction n with
  | zero =>
    intro i h
    simp only [probe_loop] at h
    injection h with h
    injection h with h1 h2
    exact Or.inl ⟨h1.symm, h2.symm⟩
  | succ n ih =>
    intro i h
    unfold probe_loop at h
    split at h
    · cases h
    · exact ih (i + 1) h
    · exact Or.inr ⟨i, h⟩

/-- A geometry found by the probe was read from a header inside the buffer. -/
theorem probe_header {pbuf : RawVec} {nbeam ncell : Int}
    (h : probe pbuf = .ok (nbeam, ncell)) :
    ∃ p, p + 31 < pbuf.length ∧ nbeam = ((pbuf.byte (p + 26)).val : Int)
      ∧ ncell = ((stored16 pbuf (p + 30) : Nat) : Int) ∧ 2 ≤ nbeam ∧ nbeam ≤ 3 := by
  unfold probe at h
  split at h
  · cases h
  · rename_i nb nc hl
    split at h
    · cases h
    · rename_i hneg
      injection h with h
      injection h with h1 h2
      subst h1 h2
      rcases probe_loop_header pbuf _ _ hl with hh | ⟨p, hh⟩
      · omega
      · exact ⟨p, header_at_facts hh⟩

theorem ldc_of_beams {pbuf : RawVec} {p : Nat} (hlen : 1000 ≤ pbuf.length) (hp : p ≤ 996)
    (hno : ∀ q, q < p → ¬ SyncAt pbuf q) (hs : SyncAt pbuf p) (hin : p + 31 < pbuf.length)
    (hb : ¬ ((pbuf.byte (p + 26)).val = 2 ∨ (pbuf.byte (p + 26)).val = 3)) :
    probe pbuf = .error (.beams (pbuf.byte (p + 26)).val) := by
  rw [probe_eq_header_at hlen hp hno hs, header_at_of_lt hin, if_pos (by omega)]

/-- C15. The probe stops at the first sync occurrence: on a buffer of at least 1000 bytes with
the flags off, let `p` be the smallest offset in 0..996 at which the sync bytes stand, with
`p + 31` inside the buffer. When `byte[p+26]` is neither 2 nor 3 the call stops with the error
on the number of beams, whatever follows `p`; otherwise the probe derives
`(byte[p+26], byte[p+30] + 256 * byte[p+31])`, the call does not fail and both passes use the
frame length `80 + 4 * byte[p+26] * (byte[p+30] + 256 * byte[p+31])`. -/
theorem C15_first_sync_decides (buf : RawVec) (p : Nat)
    (hlen : 1000 ≤ buf.length) (hp : p ≤ 996) (hs : SyncAt buf p)
    (hfirst : ∀ q, q < p → ¬ SyncAt buf q) (hin : p + 31 < buf.length) :
    (¬ ((buf.byte (p + 26)).val = 2 ∨ (buf.byte (p + 26)).val = 3) →
        ∀ max : Int,
          ldc_sontek_adp buf 0 0 0 max = .error (.beams (buf.byte (p + 26)).val))
      ∧ (((buf.byte (p + 26)).val = 2 ∨ (buf.byte (p + 26)).val = 3) →
          probe buf = .ok (((buf.byte (p + 26)).val : Int),
            (((buf.byte (p + 30)).val + 256 * (buf.byte (p + 31)).val : Nat) : Int))
          ∧ chunk_length 0 0 0
              (((buf.byte (p + 30)).val + 256 * (buf.byte (p + 31)).val : Nat) : Int)
              ((buf.byte (p + 26)).val : Int)
            = ((80 + 4 * (buf.byte (p + 26)).val
                * ((buf.byte (p + 30)).val + 256 * (buf.byte (p + 31)).val) : Nat) : Int)
          ∧ ∀ max : Int, ldc_sontek_adp buf 0 0 0 max
              = .ok (encode (kept max (passing buf
                  (80 + 4 * (buf.byte (p + 26)).val
                    * ((buf.byte (p + 30)).val + 256 * (buf.byte (p + 31)).val)) 0
                  (scan_bound buf.length
                    ((80 + 4 * (buf.byte (p + 26)).val
                      * ((buf.byte (p + 30)).val + 256 * (buf.byte (p + 31)).val) : Nat)
                        : Int)))))) := by
  constructor
  · intro hb max
    exact ldc_of_probe_error max hlen (ldc_of_beams hlen hp hfirst hs hin hb)
  · intro hb
    have hprobe := probe_of_first_sync hp hfirst hs hin hb
    unfold stored16 at hprobe
    refine ⟨hprobe, chunk_length_eq _ _, ?_⟩
    intro max
    rw [ldc_eq buf max _ _ hlen hprobe, chunk_length_eq, Int.toNat_ofNat]

/-- C15 at `buf_shadow`: the first sync occurrence is at offset 0, where byte 26 is 0; the
sync occurrence at offset 3 carries a beam count of 2. -/
theorem C15_first_sync_decides_witness :
    (1000 ≤ buf_shadow.length ∧ 0 ≤ 996 ∧ SyncAt buf_shadow 0
      ∧ (∀ q, q < 0 → ¬ SyncAt buf_shadow q) ∧ 0 + 31 < buf_shadow.length)
    ∧ ((¬ ((buf_shadow.byte (0 + 26)).val = 2 ∨ (buf_shadow.byte (0 + 26)).val = 3) →
        ∀ max : Int,
          ldc_sontek_adp buf_shadow 0 0 0 max
            = .error (.beams (buf_shadow.byte (0 + 26)).val))
      ∧ (((buf_shadow.byte (0 + 26)).val = 2 ∨ (buf_shadow.byte (0 + 26)).val = 3) →
          probe buf_shadow = .ok (((buf_shadow.byte (0 + 26)).val : Int),
            (((buf_shadow.byte (0 + 30)).val + 256 * (buf_shadow.byte (0 + 31)).val : Nat)
              : Int))
          ∧ chunk_length 0 0 0
              (((buf_shadow.byte (0 + 30)).val + 256 * (buf_shadow.byte (0 + 31)).val : Nat)
                : Int)
              ((buf_shadow.byte (0 + 26)).val : Int)
            = ((80 + 4 * (buf_shadow.byte (0 + 26)).val
                * ((buf_shadow.byte (0 + 30)).val + 256 * (buf_shadow.byte (0 + 31)).val)
                  : Nat) : Int)
          ∧ ∀ max : Int, ldc_sontek_adp buf_shadow 0 0 0 max
              = .ok (encode (kept max (passing buf_shadow
                  (80 + 4 * (buf_shadow.byte (0 + 26)).val
                    * ((buf_shadow.byte (0 + 30)).val
                      + 256 * (buf_shadow.byte (0 + 31)).val)) 0
                  (scan_bound buf_shadow.length
                    ((80 + 4 * (buf_shadow.byte (0 + 26)).val
                      * ((buf_shadow.byte (0 + 30)).val
                        + 256 * (buf_shadow.byte (0 + 31)).val) : Nat) : Int))))))) :=
  ⟨⟨by decide, by decide, by decide, by decide, by decide⟩,
    C15_first_sync_decides buf_shadow 0 (by decide) (by decide) (by decide) (by decide)
      (by decide)⟩

/-- C16. A match does not suppress later candidates: on a buffer of at least 1000 bytes with
the flags off and `max` negative, `L` being the derived frame length, when two offsets
`i < j < bufferLength - 3 - L` both pass the sync-and-checksum test, the call succeeds and
both `i + 1` and `j + 1` are in the result, whether or not the windows overlap; and every
passing offset below `bufferLength - 3 - L` is in the result. -/
theorem C16_no_suppression (buf : RawVec) (max nbeam ncell : Int) (i j : Nat)
    (hlen : 1000 ≤ buf.length) (hmax : max < 0) (hp : probe buf = .ok (nbeam, ncell))
    (hij : i < j)
    (hj : (j : Int) < (buf.length : Int) - 3 - chunk_length 0 0 0 ncell nbeam)
    (hpi : Passes buf (chunk_length 0 0 0 ncell nbeam).toNat i)
    (hpj : Passes buf (chunk_length 0 0 0 ncell nbeam).toNat j) :
    ∃ res, ldc_sontek_adp buf 0 0 0 max = .ok res
      ∧ some ((i : Int) + 1) ∈ res ∧ some ((j : Int) + 1) ∈ res
      ∧ ∀ t : Nat, (t : Int) < (buf.length : Int) - 3 - chunk_length 0 0 0 ncell nbeam →
          Passes buf (chunk_length 0 0 0 ncell nbeam).toNat t → some ((t : Int) + 1) ∈ res := by
  have hall : ∀ t : Nat,
      (t : Int) < (buf.length : Int) - 3 - chunk_length 0 0 0 ncell nbeam →
      Passes buf (chunk_length 0 0 0 ncell nbeam).toNat t →
      some ((t : Int) + 1) ∈ encode (kept max (passing buf
        (chunk_length 0 0 0 ncell nbeam).toNat 0
        (scan_bound buf.length (chunk_length 0 0 0 ncell nbeam)))) := by
    intro t ht hpt
    rw [kept_of_nonpos (Int.le_of_lt hmax)]
    exact mem_encode_iff.mpr
      (mem_passing.mpr ⟨⟨Nat.zero_le _, by unfold scan_bound; omega⟩, hpt⟩)
  exact ⟨_, ldc_eq buf max nbeam ncell hlen hp, hall i (by omega) hpi, hall j hj hpj, hall⟩

/-- C16 at `buf_overlap` without a cap: the offsets 0 and 40 both pass, and the window of the
second starts inside the window of the first. -/
theorem C16_no_suppression_witness :
    (1000 ≤ buf_overlap.length ∧ (-1 : Int) < 0 ∧ probe buf_overlap = .ok (2, 0)
      ∧ 0 < 40
      ∧ ((40 : Nat) : Int) < (buf_overlap.length : Int) - 3 - chunk_length 0 0 0 0 2
      ∧ Passes buf_overlap (chunk_length 0 0 0 0 2).toNat 0
      ∧ Passes buf_overlap (chunk_length 0 0 0 0 2).toNat 40
      ∧ 40 < 0 + (chunk_length 0 0 0 0 2).toNat + 2)
    ∧ ∃ res, ldc_sontek_adp buf_overlap 0 0 0 (-1) = .ok res
      ∧ some (((0 : Nat) : Int) + 1) ∈ res ∧ some (((40 : Nat) : Int) + 1) ∈ res
      ∧ ∀ t : Nat, (t : Int) < (buf_overlap.length : Int) - 3 - chunk_length 0 0 0 0 2 →
          Passes buf_overlap (chunk_length 0 0 0 0 2).toNat t → some ((t : Int) + 1) ∈ res :=
  ⟨⟨by decide, by decide, by decide, by decide, by decide, by decide, by decide, by decide⟩,
    C16_no_suppression buf_overlap (-1) 2 0 0 40 (by decide) (by decide) (by decide)
      (by decide) (by decide) (by decide) (by decide)⟩

/-- C17 fails on the code at `buf_late`, a buffer of 1000 bytes whose first sync occurrence
is at offset 990: the probe then reads `pbuf[990 + 26]`, an index past the end of the buffer,
and the bounds-checked run stops there. -/
theorem C17_probe_reads_past_the_end :
    1000 ≤ buf_late.length ∧ SyncAt buf_late 990 ∧ (∀ q, q < 990 → ¬ SyncAt buf_late q)
      ∧ buf_late.length ≤ 990 + 26
      ∧ rd buf_late (990 + 26) = .error .out_of_bounds
      ∧ probe buf_late = .error .out_of_bounds
      ∧ ldc_sontek_adp buf_late 0 0 0 (-1) = .error .out_of_bounds := by
  decide

/-! ## The frame-length arithmetic -/

/-- C20. Frame-length arithmetic cannot overflow: when the probe succeeds, the beam count is
2 or 3, the cell count lies in 0..65535, and the frame length `L = 80 + 4 * ncell * nbeam`
satisfies `80 ≤ L ≤ 786500` and is a multiple of 4; for a buffer length up to `2^31 - 1` the
values `4 * ncell`, `4 * ncell * nbeam`, `L`, `lbuf - 3` and the loop bound `lbuf - 3 - L`
are all 32-bit signed values; and when the bound is negative or zero the call succeeds with
the zero-match result `[0]`. -/
theorem C20_frame_length_fits (buf : RawVec) (nbeam ncell : Int)
    (hlen : 1000 ≤ buf.length) (hlen31 : buf.length ≤ 2147483647)
    (hp : probe buf = .ok (nbeam, ncell)) :
    (nbeam = 2 ∨ nbeam = 3) ∧ 0 ≤ ncell ∧ ncell ≤ 65535
      ∧ chunk_length 0 0 0 ncell nbeam = 80 + 4 * ncell * nbeam
      ∧ 80 ≤ chunk_length 0 0 0 ncell nbeam ∧ chunk_length 0 0 0 ncell nbeam ≤ 786500
      ∧ chunk_length 0 0 0 ncell nbeam % 4 = 0
      ∧ fits32 (4 * ncell) ∧ fits32 (4 * ncell * nbeam)
      ∧ fits32 (chunk_length 0 0 0 ncell nbeam)
      ∧ fits32 ((buf.length : Int) - 3)
      ∧ fits32 ((buf.length : Int) - 3 - chunk_length 0 0 0 ncell nbeam)
      ∧ ((buf.length : Int) - 3 - chunk_length 0 0 0 ncell nbeam ≤ 0 →
          ∀ max : Int, ldc_sontek_adp buf 0 0 0 max = .ok [some 0]) := by
  obtain ⟨p, _, hb, hc, hb2, hb3⟩ := probe_header hp
  have hlo := (buf.byte (p + 30)).isLt
  have hhi := (buf.byte (p + 30 + 1)).isLt
  have hc0 : 0 ≤ ncell := by rw [hc]; omega
  have hc1 : ncell ≤ 65535 := by rw [hc]; unfold stored16; omega
  have hchunk : chunk_length 0 0 0 ncell nbeam = 80 + 4 * ncell * nbeam := by
    simp only [chunk_length, ne_eq, not_true_eq_false, if_false]
    omega
  have hbcases : nbeam = 2 ∨ nbeam = 3 := by omega
  have hprod : 4 * ncell * nbeam = 8 * ncell ∨ 4 * ncell * nbeam = 12 * ncell := by
    rcases hbcases with h | h
    · left; rw [h]; ring
    · right; rw [h]; ring
  refine ⟨hbcases, hc0, hc1, hchunk, ?_, ?_, ?_, ?_, ?_, ?_, ?_, ?_, ?_⟩
  · rw [hchunk]; omega
  · rw [hchunk]; omega
  · rw [hchunk]; omega
  · unfold fits32; omega
  · unfold fits32; omega
  · rw [hchunk]; unfold fits32; omega
  · unfold fits32; omega
  · rw [hchunk]; unfold fits32; omega
  · intro hle max
    rw [ldc_eq buf max nbeam ncell hlen hp]
    have h0 : scan_bound buf.length (chunk_length 0 0 0 ncell nbeam) = 0 := by
      unfold scan_bound
      omega
    rw [h0]
    have hnil : passing buf (chunk_length 0 0 0 ncell nbeam).toNat 0 0 = [] := by
      simp [passing]
    rw [hnil, kept_eq_nil_iff.mpr rfl]
    rfl

/-- C20 at `buf_wide`: 2 beams and 115 cells give `L = 1000` and the loop bound `-3`. -/
theorem C20_frame_length_fits_witness :
    (1000 ≤ buf_wide.length ∧ buf_wide.length ≤ 2147483647 ∧ probe buf_wide = .ok (2, 115))
    ∧ (((2 : Int) = 2 ∨ (2 : Int) = 3) ∧ (0 : Int) ≤ 115 ∧ (115 : Int) ≤ 65535
      ∧ chunk_length 0 0 0 115 2 = 80 + 4 * 115 * 2
      ∧ 80 ≤ chunk_length 0 0 0 115 2 ∧ chunk_length 0 0 0 115 2 ≤ 786500
      ∧ chunk_length 0 0 0 115 2 % 4 = 0
      ∧ fits32 (4 * 115) ∧ fits32 (4 * 115 * 2)
      ∧ fits32 (chunk_length 0 0 0 115 2)
      ∧ fits32 ((buf_wide.length : Int) - 3)
      ∧ fits32 ((buf_wide.length : Int) - 3 - chunk_length 0 0 0 115 2)
      ∧ ((buf_wide.length : Int) - 3 - chunk_length 0 0 0 115 2 ≤ 0 →
          ∀ max : Int, ldc_sontek_adp buf_wide 0 0 0 max = .ok [some 0])) :=
  ⟨⟨by decide, by decide, by decide⟩,
    C20_frame_length_fits buf_wide 2 115 (by decide) (by decide) (by decide)⟩

end SontekAdp
